import Mathlib

/-!
# JAM message base reader (package `jambase`)

A shallow embedding of `jambase.go` and `errors.go`.

Modelling conventions.

* A byte is a `Fin 256`; a Go `string` or `[]byte` is a `List Byte`.
* An open `*os.File` on a regular file is its content together with the
  current offset.  `File.Read` is one call of `(*os.File).Read` on such a
  file: it transfers `min (len buf) (bytes left)` bytes and never more than
  `maxRW = 1 << 30`, the most Go hands to one `read`; it reports `io.EOF`
  when the buffer is not empty and nothing is left, and returns `0, nil` for
  an empty buffer.
* Go `int` is the 64-bit `int` of Go's 64-bit targets.
* The two channels of `ReadMessages` are modelled by what is sent on them
  before both are closed: the list of messages, in the order sent, and the
  error sent, if any.
-/

namespace JamBase

/-! ## Bytes, strings, errors -/

abbrev Byte := Fin 256

/-- A Go `string` (an immutable byte sequence). -/
abbrev GoString := List Byte

/-- The error values the package can return.  The first three are the
sentinels of `errors.go`; `EOF` is `io.EOF`; `errorf` is the value built by
`fmt.Errorf`, carried as its message; `pathError` is the `*fs.PathError` of a
failed `os` call, carried as the name of the operation. -/
inductive GoError where
  | ErrNoExtension
  | ErrNoJAMSignature
  | ErrShortRead
  | EOF
  | errorf (msg : String)
  | pathError (op : String)
  deriving DecidableEq, Repr

export GoError (ErrNoExtension ErrNoJAMSignature ErrShortRead)

/-- Conversion to a signed 64-bit integer (`int64(x)`, and `int(x)` on a
64-bit target): two's-complement wrap-around. -/
def toInt64 (x : Int) : Int := (x + 2 ^ 63) % 2 ^ 64 - 2 ^ 63

/-- Conversion to `uint32`: `uint32(x)`. -/
def toUint32 (x : Int) : Nat := (x % 2 ^ 32).toNat

/-- The `make([]byte, n)` of Go: `n` zero bytes. -/
def makeBytes (n : Nat) : List Byte := List.replicate n 0

/-- The slice expression `b[lo:hi]`. -/
def slice (b : List Byte) (lo hi : Nat) : List Byte := (b.drop lo).take (hi - lo)

namespace bytes

/-- The `bytes.Equal` of Go. -/
def Equal (a b : List Byte) : Bool := decide (a = b)

end bytes

namespace binary.LittleEndian

/-- The `binary.LittleEndian.Uint16` of Go: `uint16(b[0]) | uint16(b[1])<<8`. -/
def Uint16 (b : List Byte) : Nat :=
  (b.getD 0 0).val ||| ((b.getD 1 0).val <<< 8)

/-- The `binary.LittleEndian.Uint32` of Go:
`uint32(b[0]) | uint32(b[1])<<8 | uint32(b[2])<<16 | uint32(b[3])<<24`. -/
def Uint32 (b : List Byte) : Nat :=
  (b.getD 0 0).val ||| ((b.getD 1 0).val <<< 8) ||| ((b.getD 2 0).val <<< 16)
    ||| ((b.getD 3 0).val <<< 24)

end binary.LittleEndian

namespace strings

/-- Scanning loop of `strings.ReplaceAll`: the first argument counts the bytes
of an already replaced occurrence of `old` that are still to be skipped. -/
def replaceFrom (old new : GoString) : Nat → GoString → GoString
  | _, [] => []
  | skip + 1, _ :: cs => replaceFrom old new skip cs
  | 0, c :: cs =>
    if old ≠ [] ∧ (c :: cs).take old.length = old then
      new ++ replaceFrom old new (old.length - 1) cs
    else
      c :: replaceFrom old new 0 cs

/-- The `strings.ReplaceAll` of Go for a non-empty `old`: every
non-overlapping occurrence of `old`, found left to right, is replaced by
`new`.  (An empty `old`, which the program never passes, matches nowhere
here.) -/
def ReplaceAll (s old new : GoString) : GoString := replaceFrom old new 0 s

/-- The `strings.ToUpper` of Go.  A string of ASCII bytes only is returned as
it is when it has no lower-case letter, and otherwise with every byte
`'a'..'z'` lowered by `'a' - 'A'`.  A string with a byte `≥ 0x80` goes through
`Map(unicode.ToUpper, s)`; the Unicode tables behind it are not part of the
package, so that mapping stands as the argument `mapUpper`. -/
def ToUpper (mapUpper : GoString → GoString) (s : GoString) : GoString :=
  let isASCII := s.all (fun c => decide (c.val < 0x80))
  let hasLower := s.any (fun c => decide (97 ≤ c.val ∧ c.val ≤ 122))
  if isASCII then
    if !hasLower then s
    else s.map (fun c => if 97 ≤ c.val ∧ c.val ≤ 122 then c - 32 else c)
  else mapUpper s

end strings

/-! ## Time -/

/-- The location of a `time.Time`. -/
inductive Location where
  | UTC
  | Local
  deriving DecidableEq, Repr

/-- A `time.Time`: seconds and nanoseconds since the Unix epoch, and a
location. -/
structure Time where
  sec : Int
  nsec : Int
  loc : Location
  deriving DecidableEq, Repr

namespace time

/-- The zero `time.Time`: January 1, year 1, 00:00:00 UTC. -/
def zero : Time := ⟨-62135596800, 0, .UTC⟩

/-- The `time.Unix` of Go: the local time `sec` seconds and `nsec`
nanoseconds after the Unix epoch, with `nsec` brought into `[0, 1e9)`. -/
def Unix (sec nsec : Int) : Time :=
  ⟨toInt64 (sec + Int.fdiv nsec 1000000000), Int.fmod nsec 1000000000, .Local⟩

end time

/-- The method `Time.UTC`: the same instant with the location set to UTC. -/
def Time.UTC (t : Time) : Time := { t with loc := .UTC }

/-! ## Files -/

/-- An open `*os.File` on a regular file: the content and the offset. -/
structure File where
  content : List Byte
  offset : Nat
  deriving DecidableEq, Repr

/-- The bytes between the offset and the end of the file. -/
def File.remaining (fh : File) : List Byte := fh.content.drop fh.offset

/-- The most one call of `Read` transfers: the `maxRW` of Go's
`internal/poll`, `1 << 30` bytes. -/
def maxRW : Nat := 1 <<< 30

/-- The method `(*os.File).Read`: gives the handle after the call, the buffer
after the call, the number of bytes read and the error.  A buffer longer than
`maxRW` is cut to `maxRW` bytes for the call (`p = p[:maxRW]`). -/
def File.Read (fh : File) (buf : List Byte) : File × List Byte × Int × Option GoError :=
  if buf.length = 0 then (fh, buf, 0, none)
  else
    let n := if buf.length > maxRW then maxRW else buf.length
    let got := fh.remaining.take n
    if got.length = 0 then (fh, buf, 0, some .EOF)
    else
      (⟨fh.content, fh.offset + got.length⟩, got ++ buf.drop got.length, got.length, none)

/-- The method `(*os.File).Seek` with `whence = 0` (`io.SeekStart`) on a
regular file: a non-negative offset is accepted, also past the end. -/
def File.Seek (fh : File) (offset : Int) : File × Int × Option GoError :=
  if offset < 0 then (fh, 0, some (.pathError "seek"))
  else (⟨fh.content, offset.toNat⟩, offset, none)

/-- The files that exist, by name. -/
abbrev FileSystem := GoString → Option (List Byte)

namespace os

/-- The `os.Open` of Go on a file system: a handle at offset 0, or an error. -/
def Open (fs : FileSystem) (name : GoString) : Option File × Option GoError :=
  match fs name with
  | some content => (some ⟨content, 0⟩, none)
  | none => (none, some (.pathError "open"))

end os

/-! ## The package -/

def jamSignature : List Byte := [74, 65, 77, 0]

def revisionOne : Nat := 1

structure JAMFixedHeaderInfo where
  ActiveMessages : Int
  BaseMessageNumber : Int
  DateCreated : Time
  UpdateCounter : Int
  deriving DecidableEq, Repr

structure JAMMessageHeaderSubfield where
  FieldID : Nat
  FieldValue : GoString
  deriving DecidableEq, Repr

structure JAMMessageHeader where
  DateReceived : Time
  DateProcessed : Time
  DateWritten : Time
  MessageNumber : Nat
  NumSubfields : Nat
  ReplyFirst : Nat
  ReplyNext : Nat
  ReplyTo : Bool
  SubFields : List JAMMessageHeaderSubfield
  TextOffset : Nat
  TextLength : Nat
  deriving DecidableEq, Repr

structure JAMMessage where
  Header : JAMMessageHeader
  Text : GoString
  deriving DecidableEq, Repr

structure JAMBase where
  headerFilePath : GoString
  textDataFilePath : GoString
  deriving DecidableEq, Repr

/-- The zero value `JAMFixedHeaderInfo{}`. -/
def JAMFixedHeaderInfo.zero : JAMFixedHeaderInfo := ⟨0, 0, time.zero, 0⟩

/-- The zero value `JAMMessageHeader{}`. -/
def JAMMessageHeader.zero : JAMMessageHeader :=
  ⟨time.zero, time.zero, time.zero, 0, 0, 0, 0, false, [], 0, 0⟩

/-- The function `readMessageHeader`: the returned header and error, and the
handle after the call. -/
def readMessageHeader (fh : File) : (JAMMessageHeader × Option GoError) × File :=
  let res := JAMMessageHeader.zero
  let headerBuffer := makeBytes 76
  let (fh, headerBuffer, bytesRead, err) := fh.Read headerBuffer
  if err ≠ none then ((res, err), fh)
  else if bytesRead ≠ (headerBuffer.length : Int) then ((res, some ErrShortRead), fh)
  else if !bytes.Equal (slice headerBuffer 0 4) jamSignature then
    ((res, some ErrNoJAMSignature), fh)
  else
    let revision := binary.LittleEndian.Uint16 (slice headerBuffer 4 6)
    if revision ≠ revisionOne then
      ((res, some (.errorf ("Unknown JAM header revision: " ++ toString revision))), fh)
    else
      let subfieldLength := binary.LittleEndian.Uint32 (slice headerBuffer 8 12)
      let res := { res with TextOffset := binary.LittleEndian.Uint32 (slice headerBuffer 60 64) }
      let res := { res with TextLength := binary.LittleEndian.Uint32 (slice headerBuffer 64 68) }
      let buf := makeBytes subfieldLength
      let (fh, buf, bytesRead, err) := fh.Read buf
      if err ≠ none then ((res, err), fh)
      else if bytesRead ≠ (buf.length : Int) then ((res, some ErrShortRead), fh)
      else ((res, none), fh)

/-- The function `readFixedHeader`: the returned summary and error, and the
handle after the call. -/
def readFixedHeader (fh : File) : (JAMFixedHeaderInfo × Option GoError) × File :=
  let res := JAMFixedHeaderInfo.zero
  let headerBuffer := makeBytes 1024
  let (fh, headerBuffer, bytesRead, err) := fh.Read headerBuffer
  if err ≠ none then ((res, err), fh)
  else if bytesRead ≠ (headerBuffer.length : Int) then ((res, some ErrShortRead), fh)
  else if !bytes.Equal (slice headerBuffer 0 4) jamSignature then
    ((res, some ErrNoJAMSignature), fh)
  else
    let dateCreated := binary.LittleEndian.Uint32 (slice headerBuffer 4 8)
    let updateCounter := binary.LittleEndian.Uint32 (slice headerBuffer 8 12)
    let activeMessages := binary.LittleEndian.Uint32 (slice headerBuffer 12 16)
    let baseMsgNum := binary.LittleEndian.Uint32 (slice headerBuffer 20 24)
    let res := { res with DateCreated := (time.Unix (toInt64 dateCreated) 0).UTC }
    let res := { res with UpdateCounter := toInt64 updateCounter }
    let res := { res with ActiveMessages := toInt64 activeMessages }
    let res := { res with BaseMessageNumber := toInt64 baseMsgNum }
    ((res, none), fh)

/-- The loop `for i := 0; i < fhi.ActiveMessages; i++` of `ReadMessages`, by
the number of iterations still to run: the messages sent on the message
channel and the error sent on the error channel, if any. -/
def readMessagesLoop : Nat → File → File → List JAMMessage × Option GoError
  | 0, _, _ => ([], none)
  | n + 1, headerHandle, textDataHandle =>
    let r := readMessageHeader headerHandle
    let hdr := r.1.1
    let err := r.1.2
    let headerHandle := r.2
    if err ≠ none then ([], err)
    else
      let s := textDataHandle.Seek (toInt64 hdr.TextOffset)
      let textDataHandle := s.1
      let err := s.2.2
      if err ≠ none then ([], err)
      else
        let buf := makeBytes hdr.TextLength
        let q := textDataHandle.Read buf
        let textDataHandle := q.1
        let buf := q.2.1
        let bytesRead := q.2.2.1
        let err := q.2.2.2
        if err ≠ none then ([], err)
        else if toUint32 bytesRead ≠ hdr.TextLength then ([], some ErrShortRead)
        else
          let jamMsg : JAMMessage := ⟨hdr, strings.ReplaceAll buf [13] [10]⟩
          let rest := readMessagesLoop n headerHandle textDataHandle
          (jamMsg :: rest.1, rest.2)

/-- The method `(*JAMBase).ReadMessages`, run to the closing of both
channels: what was sent on the message channel, in order, and what was sent
on the error channel. -/
def JAMBase.ReadMessages (fs : FileSystem) (j : JAMBase) : List JAMMessage × Option GoError :=
  match os.Open fs j.headerFilePath with
  | (none, err) => ([], err)
  | (some headerHandle, _) =>
    match os.Open fs j.textDataFilePath with
    | (none, err) => ([], err)
    | (some textDataHandle, _) =>
      let r := readFixedHeader headerHandle
      let fhi := r.1.1
      let err := r.1.2
      let headerHandle := r.2
      if err ≠ none then ([], err)
      else
        readMessagesLoop fhi.ActiveMessages.toNat headerHandle textDataHandle

/-- The method `(*JAMBase).ReadFixedHeader`. -/
def JAMBase.ReadFixedHeader (fs : FileSystem) (j : JAMBase) :
    JAMFixedHeaderInfo × Option GoError :=
  match os.Open fs j.headerFilePath with
  | (none, err) => (JAMFixedHeaderInfo.zero, err)
  | (some f, _) => (readFixedHeader f).1

/-- The function `relatedPathFromHeaderPath`: the derived path and the
error.  The literals are `".JHR"` and `".jhr"`. -/
def relatedPathFromHeaderPath (mapUpper : GoString → GoString)
    (headerPath extension : GoString) : GoString × Option GoError :=
  let headerPathLen := headerPath.length
  if headerPathLen < 4 then ([], some ErrNoExtension)
  else
    let hint := slice headerPath (headerPathLen - 4) headerPathLen
    if hint = [46, 74, 72, 82] then
      (slice headerPath 0 (headerPathLen - 3) ++ strings.ToUpper mapUpper extension, none)
    else if hint = [46, 106, 104, 114] then
      (slice headerPath 0 (headerPathLen - 3) ++ extension, none)
    else ([], some ErrNoExtension)

/-- The function `NewJAMBase`: the base built and the error.  The literal is
`"jdt"`. -/
def NewJAMBase (mapUpper : GoString → GoString) (headerFilePath : GoString) :
    JAMBase × Option GoError :=
  let res : JAMBase := { headerFilePath := headerFilePath, textDataFilePath := [] }
  let r := relatedPathFromHeaderPath mapUpper headerFilePath [106, 100, 116]
  ({ res with textDataFilePath := r.1 }, r.2)

/-! ## Specification-side definitions -/

/-- Specification: the little-endian 16-bit unsigned integer stored in bytes
`[i, i+2)` of `c`. -/
def le16At (c : List Byte) (i : Nat) : Nat :=
  (c.getD i 0).val + 256 * (c.getD (i + 1) 0).val

/-- Specification: the little-endian 32-bit unsigned integer stored in bytes
`[i, i+4)` of `c`. -/
def le32At (c : List Byte) (i : Nat) : Nat :=
  (c.getD i 0).val + 256 * (c.getD (i + 1) 0).val + 65536 * (c.getD (i + 2) 0).val
    + 16777216 * (c.getD (i + 3) 0).val

/-- Specification: the summary held by a 1024-byte fixed header `c`: the
creation date at `[4:8]` as a UTC time, the update counter at `[8:12]`, the
active-message count at `[12:16]` and the base message number at `[20:24]`. -/
def fixedHeaderOf (c : List Byte) : JAMFixedHeaderInfo :=
  { ActiveMessages := (le32At c 12 : Int)
    BaseMessageNumber := (le32At c 20 : Int)
    DateCreated := ⟨(le32At c 4 : Int), 0, .UTC⟩
    UpdateCounter := (le32At c 8 : Int) }

/-- Specification: the header decoded from a message record `r`: the text
offset at `[60:64]`, the text length at `[64:68]`, every other field at its
zero value and no subfields. -/
def messageHeaderOf (r : List Byte) : JAMMessageHeader :=
  { JAMMessageHeader.zero with
    TextOffset := le32At r 60
    TextLength := le32At r 64 }

/-- Specification: newline normalisation of a text: every carriage return
(`0x0D`) becomes a newline (`0x0A`), every other byte stays as it is. -/
def normalise (t : List Byte) : List Byte :=
  t.map (fun b => if b = 13 then 10 else b)

/-- The outcome of the data-file steps of `ReadMessages` (seek to `O`, read
`L` bytes in one call, compare the count, normalise) on a data file `dat`:
the text, or the error.  The one read returns fewer than `L` bytes when fewer
are there from `O` on, and when `L` is more than one call transfers. -/
def textOutcome (dat : List Byte) (O L : Nat) : Except GoError GoString :=
  if L = 0 then .ok []
  else if (dat.drop O).length = 0 then .error .EOF
  else if (dat.drop O).length < L ∨ maxRW < L then .error ErrShortRead
  else .ok (normalise ((dat.drop O).take L))

/-- The outcome of one iteration of the loop of `ReadMessages` with the
header handle `hh` over the data file `dat`: the message, or the error. -/
def recordOutcome (dat : List Byte) (hh : File) : Except GoError JAMMessage :=
  match (readMessageHeader hh).1.2 with
  | some e => .error e
  | none =>
    match textOutcome dat (readMessageHeader hh).1.1.TextOffset
        (readMessageHeader hh).1.1.TextLength with
    | .error e => .error e
    | .ok t => .ok ⟨(readMessageHeader hh).1.1, t⟩

/-- The header handle after `i` calls of `readMessageHeader`, from `hh`. -/
def handleAfter : Nat → File → File
  | 0, hh => hh
  | i + 1, hh => handleAfter i (readMessageHeader hh).2

/-- Specification: a well-formed message record: the signature `JAM\0`,
revision 1, and the 76-byte block followed by exactly the number of subfield
bytes it declares at `[8:12]`. -/
def WellFormedRecord (r : List Byte) : Prop :=
  r.take 4 = [0x4A, 0x41, 0x4D, 0x00] ∧ le16At r 4 = 1 ∧ r.length = 76 + le32At r 8

/-- Specification: the message of the record `r` over the data file `dat`:
the decoded header, and the `TextLength` bytes of `dat` from `TextOffset`,
normalised. -/
def messageOf (dat r : List Byte) : JAMMessage :=
  ⟨messageHeaderOf r, normalise ((dat.drop (le32At r 60)).take (le32At r 64))⟩

/-! ## Sample inputs -/

/-- A fixed header: created 16 s after the epoch, update counter 3, two
active messages, base message number 261. -/
def sampleFixedHeader : List Byte :=
  [74, 65, 77, 0, 16, 0, 0, 0, 3, 0, 0, 0, 2, 0, 0, 0, 9, 9, 9, 9, 5, 1, 0, 0]
    ++ List.replicate 1000 0

/-- A message record of revision 1 with a 3-byte subfield block, text offset
1 and text length 4. -/
def sampleRecord : List Byte :=
  [74, 65, 77, 0, 1, 0, 0, 0, 3, 0, 0, 0] ++ List.replicate 48 0
    ++ [1, 0, 0, 0, 4, 0, 0, 0] ++ List.replicate 8 0 ++ [7, 7, 7]

/-- A message record of revision 1 without subfields, text offset 0 and text
length 2. -/
def sampleRecord2 : List Byte :=
  [74, 65, 77, 0, 1, 0, 0, 0, 0, 0, 0, 0] ++ List.replicate 48 0
    ++ [0, 0, 0, 0, 2, 0, 0, 0] ++ List.replicate 8 0

/-- A 76-byte block of revision 2 that declares 3 subfield bytes; nothing
follows it. -/
def sampleRecordRev2 : List Byte :=
  [74, 65, 77, 0, 2, 0, 0, 0, 3, 0, 0, 0] ++ List.replicate 64 0

/-- A 76-byte block whose fourth byte breaks the signature; revision 2 and 3
declared subfield bytes. -/
def sampleBadSignature : List Byte :=
  [74, 65, 77, 1, 2, 0, 0, 0, 3, 0, 0, 0] ++ List.replicate 64 0

/-- A fixed header that agrees with the sample fixed header on bytes `[0:16)`
and `[20:24)` and differs elsewhere. -/
def sampleFixedHeaderB : List Byte :=
  [74, 65, 77, 0, 16, 0, 0, 0, 3, 0, 0, 0, 2, 0, 0, 0, 1, 2, 3, 4, 5, 1, 0, 0]
    ++ List.replicate 1000 7 ++ [5, 5]

/-- A message record of revision 1 without subfields, text offset 3 and text
length 9. -/
def sampleRecord3 : List Byte :=
  [74, 65, 77, 0, 1, 0, 0, 0, 0, 0, 0, 0] ++ List.replicate 48 0
    ++ [3, 0, 0, 0, 9, 0, 0, 0] ++ List.replicate 8 0

/-- A 76-byte block of revision 1 that declares `2^30 + 1` subfield bytes;
text offset 1 and text length 4. -/
def largeBlock : List Byte :=
  [74, 65, 77, 0, 1, 0, 0, 0, 1, 0, 0, 64] ++ List.replicate 48 0
    ++ [1, 0, 0, 0, 4, 0, 0, 0] ++ List.replicate 8 0

/-- A complete record: that block followed by its `2^30 + 1` subfield bytes. -/
def largeRecord : List Byte := largeBlock ++ List.replicate 1073741825 0

/-- A message record of revision 1 without subfields, text offset 0 and text
length `2^30 + 1`. -/
def largeTextRecord : List Byte :=
  [74, 65, 77, 0, 1, 0, 0, 0, 0, 0, 0, 0] ++ List.replicate 48 0
    ++ [0, 0, 0, 0, 1, 0, 0, 64] ++ List.replicate 8 0

/-- A fixed header with one active message. -/
def singleFixedHeader : List Byte :=
  [74, 65, 77, 0, 16, 0, 0, 0, 3, 0, 0, 0, 1, 0, 0, 0, 9, 9, 9, 9, 5, 1, 0, 0]
    ++ List.replicate 1000 0

/-- A text data file of `2^30 + 1` bytes. -/
def largeText : List Byte := List.replicate 1073741825 65

/-- A text data file. -/
def sampleText : List Byte := [65, 13, 66, 13, 13, 67]

/-- A file system with the header file `h` (the sample fixed header and the
two sample records) and the data file `d` (the sample text). -/
def sampleFS : FileSystem := fun name =>
  if name = [104] then some (sampleFixedHeader ++ (sampleRecord ++ sampleRecord2))
  else if name = [100] then some sampleText
  else none

/-- The sample file system with the second record cut off after 10 bytes. -/
def truncatedFS : FileSystem := fun name =>
  if name = [104] then some (sampleFixedHeader ++ (sampleRecord ++ sampleRecord2.take 10))
  else if name = [100] then some sampleText
  else none

/-- The sample file system with an empty data file. -/
def emptyDataFS : FileSystem := fun name =>
  if name = [104] then some (sampleFixedHeader ++ (sampleRecord ++ sampleRecord2))
  else if name = [100] then some []
  else none

/-- A header file whose second record locates a text that the sample text
holds only in part. -/
def partHeaderFile : List Byte := sampleFixedHeader ++ (sampleRecord ++ sampleRecord3)

/-- The file system with that header file and the sample text. -/
def partFS : FileSystem := fun name =>
  if name = [104] then some partHeaderFile
  else if name = [100] then some sampleText
  else none

/-- A file system with one record that locates the whole of a text of
`2^30 + 1` bytes. -/
def largeTextFS : FileSystem := fun name =>
  if name = [104] then some (singleFixedHeader ++ largeTextRecord)
  else if name = [100] then some largeText
  else none

/-- A file system with one complete record of `2^30 + 1` subfield bytes,
whose text lies in the sample text. -/
def largeSubfieldsFS : FileSystem := fun name =>
  if name = [104] then some (singleFixedHeader ++ largeRecord)
  else if name = [100] then some sampleText
  else none

/-- The base over the sample file system. -/
def sampleBase : JAMBase := ⟨[104], [100]⟩

/-! ## Auxiliary lemmas -/

theorem or_shift_eq_add (a b k : Nat) (h : a < 2 ^ k) : a ||| (b <<< k) = a + 2 ^ k * b := by
  rw [Nat.shiftLeft_eq, Nat.mul_comm b, Nat.lor_comm, ← Nat.mul_add_lt_is_or h, Nat.add_comm]

theorem Uint32_eq (b : List Byte) : binary.LittleEndian.Uint32 b = le32At b 0 := by
  unfold binary.LittleEndian.Uint32 le32At
  have h0 := (b.getD 0 0).isLt
  have h1 := (b.getD 1 0).isLt
  have h2 := (b.getD 2 0).isLt
  rw [or_shift_eq_add _ _ 8 (by omega), or_shift_eq_add _ _ 16 (by omega),
    or_shift_eq_add _ _ 24 (by omega)]
  norm_num

theorem Uint16_eq (b : List Byte) : binary.LittleEndian.Uint16 b = le16At b 0 := by
  unfold binary.LittleEndian.Uint16 le16At
  have h0 := (b.getD 0 0).isLt
  rw [or_shift_eq_add _ _ 8 (by omega)]
  norm_num

theorem getD_slice (b : List Byte) (lo hi k : Nat) (h : lo + k < hi) :
    (slice b lo hi).getD k 0 = b.getD (lo + k) 0 := by
  unfold slice
  simp only [List.getD_eq_getElem?_getD]
  rw [List.getElem?_take_of_lt (by omega), List.getElem?_drop]

theorem le32At_slice (b : List Byte) (lo hi : Nat) (h : lo + 4 ≤ hi) :
    le32At (slice b lo hi) 0 = le32At b lo := by
  unfold le32At
  rw [getD_slice b lo hi 0 (by omega), getD_slice b lo hi (0 + 1) (by omega),
    getD_slice b lo hi (0 + 2) (by omega), getD_slice b lo hi (0 + 3) (by omega)]
  simp [Nat.add_assoc]

theorem le16At_slice (b : List Byte) (lo hi : Nat) (h : lo + 2 ≤ hi) :
    le16At (slice b lo hi) 0 = le16At b lo := by
  unfold le16At
  rw [getD_slice b lo hi 0 (by omega), getD_slice b lo hi (0 + 1) (by omega)]
  simp

theorem le32At_lt (c : List Byte) (i : Nat) : le32At c i < 2 ^ 32 := by
  unfold le32At
  have h0 := (c.getD i 0).isLt
  have h1 := (c.getD (i + 1) 0).isLt
  have h2 := (c.getD (i + 2) 0).isLt
  have h3 := (c.getD (i + 3) 0).isLt
  omega

theorem toInt64_of_lt (n : Nat) (h : n < 2 ^ 32) : toInt64 (n : Int) = n := by
  unfold toInt64
  omega

theorem getD_take_of_lt (c : List Byte) (n k : Nat) (h : k < n) :
    (c.take n).getD k 0 = c.getD k 0 := by
  simp only [List.getD_eq_getElem?_getD]
  rw [List.getElem?_take_of_lt h]

theorem le32At_take (c : List Byte) (n i : Nat) (h : i + 4 ≤ n) :
    le32At (c.take n) i = le32At c i := by
  unfold le32At
  rw [getD_take_of_lt c n i (by omega), getD_take_of_lt c n (i + 1) (by omega),
    getD_take_of_lt c n (i + 2) (by omega), getD_take_of_lt c n (i + 3) (by omega)]

theorem le16At_take (c : List Byte) (n i : Nat) (h : i + 2 ≤ n) :
    le16At (c.take n) i = le16At c i := by
  unfold le16At
  rw [getD_take_of_lt c n i (by omega), getD_take_of_lt c n (i + 1) (by omega)]

theorem getD_append_of_lt (r t : List Byte) (k : Nat) (h : k < r.length) :
    (r ++ t).getD k 0 = r.getD k 0 := by
  simp only [List.getD_eq_getElem?_getD]
  rw [List.getElem?_append_left h]

theorem le32At_append (r t : List Byte) (i : Nat) (h : i + 4 ≤ r.length) :
    le32At (r ++ t) i = le32At r i := by
  unfold le32At
  rw [getD_append_of_lt r t i (by omega), getD_append_of_lt r t (i + 1) (by omega),
    getD_append_of_lt r t (i + 2) (by omega), getD_append_of_lt r t (i + 3) (by omega)]

theorem le16At_append (r t : List Byte) (i : Nat) (h : i + 2 ≤ r.length) :
    le16At (r ++ t) i = le16At r i := by
  unfold le16At
  rw [getD_append_of_lt r t i (by omega), getD_append_of_lt r t (i + 1) (by omega)]

theorem slice_take (c : List Byte) (n hi : Nat) (h : hi ≤ n) :
    slice (c.take n) 0 hi = c.take hi := by
  unfold slice
  simp [List.take_take, h]

theorem maxRW_eq : maxRW = 1073741824 := rfl

/-- A read into a non-empty buffer that one call and the file can fill. -/
theorem Read_full (fh : File) (buf : List Byte) (h0 : 0 < buf.length)
    (hcap : buf.length ≤ maxRW) (h : buf.length ≤ fh.remaining.length) :
    fh.Read buf
      = (⟨fh.content, fh.offset + buf.length⟩, fh.remaining.take buf.length,
          (buf.length : Int), none) := by
  unfold File.Read
  have hn : (if buf.length > maxRW then maxRW else buf.length) = buf.length :=
    if_neg (by omega)
  have hl : (fh.remaining.take buf.length).length = buf.length := by
    rw [List.length_take]; omega
  simp only [hn, hl]
  rw [if_neg (by omega), if_neg (by omega)]
  simp

/-- A read into a buffer longer than what is left, when something is left
and one call can transfer it. -/
theorem Read_short (fh : File) (buf : List Byte) (h0 : 0 < fh.remaining.length)
    (h : fh.remaining.length < buf.length) (hcap : fh.remaining.length ≤ maxRW) :
    fh.Read buf
      = (⟨fh.content, fh.offset + fh.remaining.length⟩,
          fh.remaining ++ buf.drop fh.remaining.length, (fh.remaining.length : Int), none) := by
  unfold File.Read
  have ht : fh.remaining.take (if buf.length > maxRW then maxRW else buf.length)
      = fh.remaining := by
    apply List.take_of_length_le
    split_ifs <;> omega
  simp only [ht]
  rw [if_neg (by omega), if_neg (by omega)]

/-- A read into a non-empty buffer at the end of the file. -/
theorem Read_eof (fh : File) (buf : List Byte) (h0 : 0 < buf.length)
    (h : fh.remaining.length = 0) :
    fh.Read buf = (fh, buf, 0, some .EOF) := by
  unfold File.Read
  have ht : (fh.remaining.take (if buf.length > maxRW then maxRW else buf.length)).length
      = 0 := by
    rw [List.length_take]; omega
  rw [if_neg (by omega)]
  simp only [ht]
  simp

/-- A read into a buffer longer than one call transfers, from a file that
holds that much. -/
theorem Read_capped (fh : File) (buf : List Byte) (hcap : maxRW < buf.length)
    (h : maxRW ≤ fh.remaining.length) :
    fh.Read buf
      = (⟨fh.content, fh.offset + maxRW⟩, fh.remaining.take maxRW ++ buf.drop maxRW,
          (maxRW : Int), none) := by
  unfold File.Read
  have hn : (if buf.length > maxRW then maxRW else buf.length) = maxRW := if_pos hcap
  have hl : (fh.remaining.take maxRW).length = maxRW := by
    rw [List.length_take]; omega
  have hpos : maxRW ≠ 0 := by rw [maxRW_eq]; omega
  simp only [hn, hl]
  rw [if_neg (by omega), if_neg hpos]

/-- A read into an empty buffer. -/
theorem Read_empty (fh : File) : fh.Read [] = (fh, [], 0, none) := by
  simp [File.Read]

theorem toInt64_le32At (c : List Byte) (i : Nat) :
    toInt64 (le32At c i : Int) = (le32At c i : Int) :=
  toInt64_of_lt _ (le32At_lt c i)

theorem readFixedHeader_of_full (fh : File) (h : 1024 ≤ fh.remaining.length) :
    readFixedHeader fh
      = if fh.remaining.take 4 = jamSignature then
          ((fixedHeaderOf fh.remaining, none), ⟨fh.content, fh.offset + 1024⟩)
        else
          ((JAMFixedHeaderInfo.zero, some ErrNoJAMSignature),
            ⟨fh.content, fh.offset + 1024⟩) := by
  unfold readFixedHeader
  have hm : (makeBytes 1024).length = 1024 := by
    simp only [makeBytes, List.length_replicate]
  have hr := Read_full fh (makeBytes 1024) (by omega) (by rw [maxRW_eq]; omega) (by omega)
  rw [hm] at hr
  simp only [hr]
  have hl : (fh.remaining.take 1024).length = 1024 := by
    rw [List.length_take]; omega
  simp only [hl, slice_take _ 1024 4 (by omega), bytes.Equal]
  by_cases hs : fh.remaining.take 4 = jamSignature
  · simp [hs, fixedHeaderOf, JAMFixedHeaderInfo.zero, Uint32_eq, le32At_slice, le32At_take,
      toInt64_le32At, time.Unix, Time.UTC]
  · simp [hs]

theorem readFixedHeader_of_short (fh : File) (h : fh.remaining.length < 1024) :
    readFixedHeader fh
      = if fh.remaining.length = 0 then
          ((JAMFixedHeaderInfo.zero, some .EOF), fh)
        else
          ((JAMFixedHeaderInfo.zero, some ErrShortRead),
            ⟨fh.content, fh.offset + fh.remaining.length⟩) := by
  unfold readFixedHeader
  have hm : (makeBytes 1024).length = 1024 := by
    simp only [makeBytes, List.length_replicate]
  by_cases h0 : fh.remaining.length = 0
  · have hr := Read_eof fh (makeBytes 1024) (by omega) h0
    simp only [hr, h0]
    simp
  · have hr := Read_short fh (makeBytes 1024) (by omega) (by omega) (by rw [maxRW_eq]; omega)
    simp only [hr, if_neg h0]
    have hl : (fh.remaining ++ List.drop fh.remaining.length (makeBytes 1024)).length = 1024 := by
      rw [List.length_append, List.length_drop, hm]; omega
    rw [hl]
    have hne : ¬ ((fh.remaining.length : Int) = 1024) := by omega
    simp [hne]

theorem remaining_advance (fh : File) (n : Nat) :
    File.remaining ⟨fh.content, fh.offset + n⟩ = fh.remaining.drop n := by
  simp [File.remaining, List.drop_drop, Nat.add_comm]

theorem readMessageHeader_of_short (fh : File) (h : fh.remaining.length < 76) :
    readMessageHeader fh
      = if fh.remaining.length = 0 then
          ((JAMMessageHeader.zero, some .EOF), fh)
        else
          ((JAMMessageHeader.zero, some ErrShortRead),
            ⟨fh.content, fh.offset + fh.remaining.length⟩) := by
  unfold readMessageHeader
  have hm : (makeBytes 76).length = 76 := by
    simp only [makeBytes, List.length_replicate]
  by_cases h0 : fh.remaining.length = 0
  · have hr := Read_eof fh (makeBytes 76) (by omega) h0
    simp only [hr, h0]
    simp
  · have hr := Read_short fh (makeBytes 76) (by omega) (by omega) (by rw [maxRW_eq]; omega)
    simp only [hr, if_neg h0]
    have hl : (fh.remaining ++ List.drop fh.remaining.length (makeBytes 76)).length = 76 := by
      rw [List.length_append, List.length_drop, hm]; omega
    rw [hl]
    have hne : ¬ ((fh.remaining.length : Int) = 76) := by omega
    simp [hne]

theorem length_makeBytes (n : Nat) : (makeBytes n).length = n := by
  simp only [makeBytes, List.length_replicate]

/-- The outcomes of a read into a fresh buffer of `S` bytes. -/
theorem Read_makeBytes (fh : File) (S : Nat) :
    fh.Read (makeBytes S)
      = if S = 0 then (fh, [], 0, none)
        else if fh.remaining.length = 0 then (fh, makeBytes S, 0, some .EOF)
        else if fh.remaining.length < S ∧ fh.remaining.length ≤ maxRW then
          (⟨fh.content, fh.offset + fh.remaining.length⟩,
            fh.remaining ++ (makeBytes S).drop fh.remaining.length,
            (fh.remaining.length : Int), none)
        else if maxRW < S then
          (⟨fh.content, fh.offset + maxRW⟩,
            fh.remaining.take maxRW ++ (makeBytes S).drop maxRW, (maxRW : Int), none)
        else (⟨fh.content, fh.offset + S⟩, fh.remaining.take S, (S : Int), none) := by
  have hm := length_makeBytes S
  by_cases hS : S = 0
  · subst hS
    simp [makeBytes, Read_empty]
  · rw [if_neg hS]
    by_cases h0 : fh.remaining.length = 0
    · rw [if_pos h0]
      exact Read_eof fh (makeBytes S) (by omega) h0
    · rw [if_neg h0]
      by_cases hlt : fh.remaining.length < S ∧ fh.remaining.length ≤ maxRW
      · rw [if_pos hlt]
        exact Read_short fh (makeBytes S) (by omega) (by omega) hlt.2
      · rw [if_neg hlt]
        by_cases hcap : maxRW < S
        · rw [if_pos hcap]
          exact Read_capped fh (makeBytes S) (by omega) (by omega)
        · rw [if_neg hcap]
          have hr := Read_full fh (makeBytes S) (by omega) (by omega) (by omega)
          rw [hm] at hr
          exact hr

theorem readMessageHeader_of_full (fh : File) (h : 76 ≤ fh.remaining.length) :
    readMessageHeader fh
      = if fh.remaining.take 4 ≠ jamSignature then
          ((JAMMessageHeader.zero, some ErrNoJAMSignature), ⟨fh.content, fh.offset + 76⟩)
        else if le16At fh.remaining 4 ≠ 1 then
          ((JAMMessageHeader.zero,
              some (.errorf ("Unknown JAM header revision: " ++ toString (le16At fh.remaining 4)))),
            ⟨fh.content, fh.offset + 76⟩)
        else if le32At fh.remaining 8 = 0 then
          ((messageHeaderOf fh.remaining, none), ⟨fh.content, fh.offset + 76⟩)
        else if fh.remaining.length = 76 then
          ((messageHeaderOf fh.remaining, some .EOF), ⟨fh.content, fh.offset + 76⟩)
        else if fh.remaining.length < 76 + le32At fh.remaining 8
            ∧ fh.remaining.length ≤ 76 + maxRW then
          ((messageHeaderOf fh.remaining, some ErrShortRead),
            ⟨fh.content, fh.offset + fh.remaining.length⟩)
        else if maxRW < le32At fh.remaining 8 then
          ((messageHeaderOf fh.remaining, some ErrShortRead),
            ⟨fh.content, fh.offset + 76 + maxRW⟩)
        else
          ((messageHeaderOf fh.remaining, none),
            ⟨fh.content, fh.offset + 76 + le32At fh.remaining 8⟩) := by
  unfold readMessageHeader
  have hm := length_makeBytes 76
  have hr := Read_full fh (makeBytes 76) (by omega) (by rw [maxRW_eq]; omega) (by omega)
  rw [hm] at hr
  simp only [hr]
  have hl : (fh.remaining.take 76).length = 76 := by
    rw [List.length_take]; omega
  simp only [hl, slice_take _ 76 4 (by omega), bytes.Equal]
  by_cases hs : fh.remaining.take 4 = jamSignature
  · by_cases hrev : le16At fh.remaining 4 = 1
    · have e16 : le16At (slice (fh.remaining.take 76) 4 6) 0 = le16At fh.remaining 4 := by
        rw [le16At_slice _ _ _ (by omega), le16At_take _ _ _ (by omega)]
      have e8 : le32At (slice (fh.remaining.take 76) 8 12) 0 = le32At fh.remaining 8 := by
        rw [le32At_slice _ _ _ (by omega), le32At_take _ _ _ (by omega)]
      have e60 : le32At (slice (fh.remaining.take 76) 60 64) 0 = le32At fh.remaining 60 := by
        rw [le32At_slice _ _ _ (by omega), le32At_take _ _ _ (by omega)]
      have e64 : le32At (slice (fh.remaining.take 76) 64 68) 0 = le32At fh.remaining 64 := by
        rw [le32At_slice _ _ _ (by omega), le32At_take _ _ _ (by omega)]
      simp only [hs, Uint16_eq, Uint32_eq, e16, e8, e60, e64,
        hrev, revisionOne, Read_makeBytes, remaining_advance, List.length_drop]
      have hmax := maxRW_eq
      by_cases hS : le32At fh.remaining 8 = 0
      · simp [hS, messageHeaderOf]
      · by_cases h76 : fh.remaining.length = 76
        · simp [hS, h76, messageHeaderOf, length_makeBytes]
        · have h1 : ¬ fh.remaining.length - 76 = 0 := by omega
          by_cases hlt : fh.remaining.length < 76 + le32At fh.remaining 8
              ∧ fh.remaining.length ≤ 76 + maxRW
          · have h2 : fh.remaining.length - 76 < le32At fh.remaining 8
                ∧ fh.remaining.length - 76 ≤ maxRW := by omega
            have h3 : ¬ ((fh.remaining.length - 76 : Nat) : Int)
                = ((fh.remaining.length - 76 + (le32At fh.remaining 8
                    - (fh.remaining.length - 76)) : Nat) : Int) := by omega
            have h4 : fh.offset + 76 + (fh.remaining.length - 76)
                = fh.offset + fh.remaining.length := by omega
            simp only [if_neg hS, if_neg h1, if_pos h2, if_neg h76, if_pos hlt, h4,
              List.length_append, List.length_drop, length_makeBytes, ne_eq, not_true_eq_false,
              if_false, if_neg h3, if_true, not_false_eq_true, messageHeaderOf]
            simp [h3]
            omega
          · have h2 : ¬ (fh.remaining.length - 76 < le32At fh.remaining 8
                ∧ fh.remaining.length - 76 ≤ maxRW) := by omega
            by_cases hcap : maxRW < le32At fh.remaining 8
            · have h7 : (fh.remaining.drop 76).length = fh.remaining.length - 76 :=
                List.length_drop _ _
              have h8 : min maxRW (fh.remaining.length - 76) = maxRW := by omega
              have h6 : ¬ ((maxRW : Nat) : Int)
                  = ((maxRW + (le32At fh.remaining 8 - maxRW) : Nat) : Int) := by omega
              simp only [if_neg hS, if_neg h1, if_neg h2, if_pos hcap, if_neg h76, if_neg hlt,
                List.length_append, List.length_drop, List.length_take, length_makeBytes, h8,
                ne_eq, not_true_eq_false, if_false, if_neg h6, if_true, not_false_eq_true,
                messageHeaderOf]
              simp [h6]
              omega
            · have h8 : min (le32At fh.remaining 8) (fh.remaining.length - 76)
                  = le32At fh.remaining 8 := by omega
              simp only [if_neg hS, if_neg h1, if_neg h2, if_neg hcap, if_neg h76, if_neg hlt,
                List.length_take, List.length_drop, h8, ne_eq, not_true_eq_false, if_false,
                if_true, not_false_eq_true, messageHeaderOf]
              simp
    · have e16 : le16At (slice (fh.remaining.take 76) 4 6) 0 = le16At fh.remaining 4 := by
        rw [le16At_slice _ _ _ (by omega), le16At_take _ _ _ (by omega)]
      simp [hs, Uint16_eq, e16, hrev, revisionOne]
  · simp [hs]

theorem sampleFixedHeader_length : sampleFixedHeader.length = 1024 := by
  simp only [sampleFixedHeader, List.length_append, List.length_cons, List.length_nil,
    List.length_replicate]

/-! ## The fixed header decoder -/

/-- C1: on a byte source at offset 0 that holds at least 1024 bytes and
starts with the signature `4A 41 4D 00`, `readFixedHeader` succeeds; the
creation date is the UTC time at the little-endian `uint32` of bytes `[4:8]`
seconds after the Unix epoch, the update counter is that of `[8:12]`, the
active-message count that of `[12:16]` and the base message number that of
`[20:24]`. -/
theorem readFixedHeader_decodes (content : List Byte) (hlen : 1024 ≤ content.length)
    (hsig : content.take 4 = [0x4A, 0x41, 0x4D, 0x00]) :
    (readFixedHeader ⟨content, 0⟩).1.2 = none ∧
    (readFixedHeader ⟨content, 0⟩).1.1.DateCreated = ⟨(le32At content 4 : Int), 0, .UTC⟩ ∧
    (readFixedHeader ⟨content, 0⟩).1.1.UpdateCounter = (le32At content 8 : Int) ∧
    (readFixedHeader ⟨content, 0⟩).1.1.ActiveMessages = (le32At content 12 : Int) ∧
    (readFixedHeader ⟨content, 0⟩).1.1.BaseMessageNumber = (le32At content 20 : Int) := by
  have hrem : File.remaining ⟨content, 0⟩ = content := by simp [File.remaining]
  have h := readFixedHeader_of_full ⟨content, 0⟩ (by rw [hrem]; exact hlen)
  rw [hrem, if_pos (by rw [hsig]; rfl)] at h
  rw [h]
  simp [fixedHeaderOf]

theorem readFixedHeader_decodes_witness :
    1024 ≤ sampleFixedHeader.length ∧
    sampleFixedHeader.take 4 = [0x4A, 0x41, 0x4D, 0x00] ∧
    (readFixedHeader ⟨sampleFixedHeader, 0⟩).1.2 = none ∧
    (readFixedHeader ⟨sampleFixedHeader, 0⟩).1.1.DateCreated
      = ⟨(le32At sampleFixedHeader 4 : Int), 0, .UTC⟩ ∧
    (readFixedHeader ⟨sampleFixedHeader, 0⟩).1.1.UpdateCounter
      = (le32At sampleFixedHeader 8 : Int) ∧
    (readFixedHeader ⟨sampleFixedHeader, 0⟩).1.1.ActiveMessages
      = (le32At sampleFixedHeader 12 : Int) ∧
    (readFixedHeader ⟨sampleFixedHeader, 0⟩).1.1.BaseMessageNumber
      = (le32At sampleFixedHeader 20 : Int) :=
  ⟨by rw [sampleFixedHeader_length], by decide,
    readFixedHeader_decodes sampleFixedHeader (by rw [sampleFixedHeader_length]) (by decide)⟩

/-- C7 as stated fails on the empty source: `readFixedHeader` returns the
`io.EOF` of the read, not `ErrShortRead`. -/
theorem readFixedHeader_empty_source_eof :
    ([] : List Byte).length < 1024 ∧
    (readFixedHeader ⟨[], 0⟩).1.2 = some GoError.EOF ∧
    (readFixedHeader ⟨[], 0⟩).1.2 ≠ some ErrShortRead := by
  have h := readFixedHeader_of_short ⟨[], 0⟩ (by simp [File.remaining])
  rw [if_pos (by simp [File.remaining])] at h
  rw [h]
  simp

/-- C7, amended: on a byte source at offset 0 that holds `n` bytes with
`1 ≤ n < 1024`, whatever they are, `readFixedHeader` fails with
`ErrShortRead`; on the empty source it fails with the `io.EOF` of the read. -/
theorem readFixedHeader_short_source (content : List Byte) (hlen : content.length < 1024) :
    (0 < content.length → (readFixedHeader ⟨content, 0⟩).1.2 = some ErrShortRead) ∧
    (content.length = 0 → (readFixedHeader ⟨content, 0⟩).1.2 = some GoError.EOF) := by
  have hrem : File.remaining ⟨content, 0⟩ = content := by simp [File.remaining]
  have h := readFixedHeader_of_short ⟨content, 0⟩ (by rw [hrem]; exact hlen)
  rw [hrem] at h
  constructor
  · intro hpos
    rw [h, if_neg (by omega)]
  · intro hz
    rw [h, if_pos hz]

theorem readFixedHeader_short_source_witness :
    (sampleFixedHeader.take 1023).length < 1024 ∧
    (0 < (sampleFixedHeader.take 1023).length →
      (readFixedHeader ⟨sampleFixedHeader.take 1023, 0⟩).1.2 = some ErrShortRead) ∧
    ((sampleFixedHeader.take 1023).length = 0 →
      (readFixedHeader ⟨sampleFixedHeader.take 1023, 0⟩).1.2 = some GoError.EOF) :=
  ⟨by rw [List.length_take, sampleFixedHeader_length]; decide,
    readFixedHeader_short_source (sampleFixedHeader.take 1023)
      (by rw [List.length_take, sampleFixedHeader_length]; decide)⟩

/-- C8: on a byte source at offset 0 that holds at least 1024 bytes,
`readFixedHeader` fails with `ErrNoJAMSignature` exactly when the first 4
bytes differ from `4A 41 4D 00`, and returns no error when they match. -/
theorem readFixedHeader_signature (content : List Byte) (hlen : 1024 ≤ content.length) :
    ((readFixedHeader ⟨content, 0⟩).1.2 = some ErrNoJAMSignature
      ↔ content.take 4 ≠ [0x4A, 0x41, 0x4D, 0x00]) ∧
    (content.take 4 = [0x4A, 0x41, 0x4D, 0x00] → (readFixedHeader ⟨content, 0⟩).1.2 = none) := by
  have hrem : File.remaining ⟨content, 0⟩ = content := by simp [File.remaining]
  have h := readFixedHeader_of_full ⟨content, 0⟩ (by rw [hrem]; exact hlen)
  rw [hrem] at h
  by_cases hs : content.take 4 = [0x4A, 0x41, 0x4D, 0x00]
  · rw [h, if_pos (by rw [hs]; rfl)]
    simp [hs]
  · rw [h, if_neg (by simpa [jamSignature] using hs)]
    simp [hs]

theorem readFixedHeader_signature_witness :
    1024 ≤ (List.replicate 1024 (0 : Byte)).length ∧
    (((readFixedHeader ⟨List.replicate 1024 0, 0⟩).1.2 = some ErrNoJAMSignature
      ↔ (List.replicate 1024 (0 : Byte)).take 4 ≠ [0x4A, 0x41, 0x4D, 0x00]) ∧
    ((List.replicate 1024 (0 : Byte)).take 4 = [0x4A, 0x41, 0x4D, 0x00] →
      (readFixedHeader ⟨List.replicate 1024 0, 0⟩).1.2 = none)) :=
  ⟨by rw [List.length_replicate],
    readFixedHeader_signature (List.replicate 1024 0) (by rw [List.length_replicate])⟩

/-! ## The message record decoder -/

theorem sampleRecord_length : sampleRecord.length = 79 := by
  simp only [sampleRecord, List.length_append, List.length_cons, List.length_nil,
    List.length_replicate]

theorem largeBlock_length : largeBlock.length = 76 := by
  simp only [largeBlock, List.length_append, List.length_cons, List.length_nil,
    List.length_replicate]

theorem largeRecord_remaining : File.remaining ⟨largeRecord, 0⟩ = largeRecord := by
  simp [File.remaining]

theorem largeRecord_length : largeRecord.length = 76 + 1073741825 := by
  simp only [largeRecord, List.length_append, List.length_replicate, largeBlock_length]

theorem largeRecord_signature : largeRecord.take 4 = [0x4A, 0x41, 0x4D, 0x00] := by
  unfold largeRecord
  rw [List.take_append_of_le_length (by rw [largeBlock_length]; omega)]
  decide

theorem largeRecord_revision : le16At largeRecord 4 = 1 := by
  unfold largeRecord
  rw [le16At_append _ _ _ (by rw [largeBlock_length]; omega)]
  decide

theorem largeRecord_declares : le32At largeRecord 8 = 1073741825 := by
  unfold largeRecord
  rw [le32At_append _ _ _ (by rw [largeBlock_length]; omega)]
  decide

/-- The call on the complete record with `2^30 + 1` subfield bytes: the one
read of the subfield block returns `2^30` bytes. -/
theorem largeRecord_run :
    readMessageHeader ⟨largeRecord, 0⟩
      = ((messageHeaderOf largeRecord, some ErrShortRead), ⟨largeRecord, 0 + 76 + maxRW⟩) := by
  have h := readMessageHeader_of_full ⟨largeRecord, 0⟩
    (by rw [largeRecord_remaining, largeRecord_length]; omega)
  rw [largeRecord_remaining] at h
  rw [if_neg (by rw [largeRecord_signature]; decide),
    if_neg (by rw [largeRecord_revision]; decide),
    if_neg (by rw [largeRecord_declares]; omega),
    if_neg (by rw [largeRecord_length]; omega),
    if_neg (by rw [largeRecord_length, largeRecord_declares]; omega),
    if_pos (by rw [largeRecord_declares, maxRW_eq]; omega)] at h
  exact h

/-- C2 as stated fails on a complete record that declares `2^30 + 1` subfield
bytes: signature, revision 1 and all `76 + 2^30 + 1` bytes are there, but the
one read of the subfield block returns `2^30` bytes, and `readMessageHeader`
fails with `ErrShortRead`. -/
theorem readMessageHeader_large_subfields_short :
    (File.remaining ⟨largeRecord, 0⟩).take 4 = [0x4A, 0x41, 0x4D, 0x00] ∧
    le16At (File.remaining ⟨largeRecord, 0⟩) 4 = 1 ∧
    le32At (File.remaining ⟨largeRecord, 0⟩) 8 = 2 ^ 30 + 1 ∧
    76 + le32At (File.remaining ⟨largeRecord, 0⟩) 8
      ≤ (File.remaining ⟨largeRecord, 0⟩).length ∧
    (readMessageHeader ⟨largeRecord, 0⟩).1.2 = some ErrShortRead ∧
    (readMessageHeader ⟨largeRecord, 0⟩).1.2 ≠ none := by
  rw [largeRecord_remaining, largeRecord_run]
  refine ⟨largeRecord_signature, largeRecord_revision, ?_, ?_, rfl, ?_⟩
  · rw [largeRecord_declares]
    norm_num
  · rw [largeRecord_declares, largeRecord_length]
  · simp

/-- C2, amended: on a byte source positioned at the start of a well-formed
message record (signature `JAM\0`, revision 1, and the 76-byte block followed
by at least as many bytes as the block declares at `[8:12]`) whose declared
subfield-block length is at most `2^30`, the most one read transfers,
`readMessageHeader` succeeds; `TextOffset` is the little-endian `uint32` of
record bytes `[60:64]`, `TextLength` that of `[64:68]`, and `SubFields` is
empty. -/
theorem readMessageHeader_decodes (fh : File)
    (hsig : fh.remaining.take 4 = [0x4A, 0x41, 0x4D, 0x00])
    (hrev : le16At fh.remaining 4 = 1)
    (hlen : 76 + le32At fh.remaining 8 ≤ fh.remaining.length)
    (hcap : le32At fh.remaining 8 ≤ 2 ^ 30) :
    (readMessageHeader fh).1.2 = none ∧
    (readMessageHeader fh).1.1.TextOffset = le32At fh.remaining 60 ∧
    (readMessageHeader fh).1.1.TextLength = le32At fh.remaining 64 ∧
    (readMessageHeader fh).1.1.SubFields = [] := by
  have hmax := maxRW_eq
  have h := readMessageHeader_of_full fh (by omega)
  rw [if_neg (by rw [hsig]; decide), if_neg (by omega)] at h
  by_cases hS : le32At fh.remaining 8 = 0
  · rw [if_pos hS] at h
    rw [h]
    simp [messageHeaderOf, JAMMessageHeader.zero]
  · rw [if_neg hS, if_neg (by omega), if_neg (by omega), if_neg (by omega)] at h
    rw [h]
    simp [messageHeaderOf, JAMMessageHeader.zero]

theorem readMessageHeader_decodes_witness :
    (File.remaining ⟨sampleRecord, 0⟩).take 4 = [0x4A, 0x41, 0x4D, 0x00] ∧
    le16At (File.remaining ⟨sampleRecord, 0⟩) 4 = 1 ∧
    76 + le32At (File.remaining ⟨sampleRecord, 0⟩) 8 ≤ (File.remaining ⟨sampleRecord, 0⟩).length ∧
    le32At (File.remaining ⟨sampleRecord, 0⟩) 8 ≤ 2 ^ 30 ∧
    (readMessageHeader ⟨sampleRecord, 0⟩).1.2 = none ∧
    (readMessageHeader ⟨sampleRecord, 0⟩).1.1.TextOffset
      = le32At (File.remaining ⟨sampleRecord, 0⟩) 60 ∧
    (readMessageHeader ⟨sampleRecord, 0⟩).1.1.TextLength
      = le32At (File.remaining ⟨sampleRecord, 0⟩) 64 ∧
    (readMessageHeader ⟨sampleRecord, 0⟩).1.1.SubFields = [] :=
  ⟨by decide, by decide, by decide, by decide,
    readMessageHeader_decodes ⟨sampleRecord, 0⟩ (by decide) (by decide) (by decide)
      (by decide)⟩

/-- C3: on a byte source positioned at offset `p` at the start of a
well-formed message record that declares a subfield block of `S` bytes, a
call of `readMessageHeader` that returns no error leaves the source, its
content unchanged, at offset `p + 76 + S`, whatever the `S` subfield bytes
are; and the call does return no error when `S` is at most `2^30`, the most
one read transfers. -/
theorem readMessageHeader_advances (fh : File)
    (hsig : fh.remaining.take 4 = [0x4A, 0x41, 0x4D, 0x00])
    (hrev : le16At fh.remaining 4 = 1)
    (hlen : 76 + le32At fh.remaining 8 ≤ fh.remaining.length) :
    ((readMessageHeader fh).1.2 = none →
      (readMessageHeader fh).2 = ⟨fh.content, fh.offset + 76 + le32At fh.remaining 8⟩) ∧
    (le32At fh.remaining 8 ≤ 2 ^ 30 → (readMessageHeader fh).1.2 = none) := by
  have hmax := maxRW_eq
  have h := readMessageHeader_of_full fh (by omega)
  rw [if_neg (by rw [hsig]; decide), if_neg (by omega)] at h
  by_cases hS : le32At fh.remaining 8 = 0
  · rw [if_pos hS] at h
    rw [h, hS]
    simp
  · rw [if_neg hS, if_neg (by omega), if_neg (by omega)] at h
    rw [h]
    by_cases hcap : maxRW < le32At fh.remaining 8
    · rw [if_pos hcap]
      refine ⟨fun hok => ?_, fun hle => ?_⟩
      · simp at hok
      · omega
    · rw [if_neg hcap]
      simp

theorem readMessageHeader_advances_witness :
    (File.remaining ⟨[9, 9] ++ sampleRecord, 2⟩).take 4 = [0x4A, 0x41, 0x4D, 0x00] ∧
    le16At (File.remaining ⟨[9, 9] ++ sampleRecord, 2⟩) 4 = 1 ∧
    76 + le32At (File.remaining ⟨[9, 9] ++ sampleRecord, 2⟩) 8
      ≤ (File.remaining ⟨[9, 9] ++ sampleRecord, 2⟩).length ∧
    (readMessageHeader ⟨[9, 9] ++ sampleRecord, 2⟩).1.2 = none ∧
    (readMessageHeader ⟨[9, 9] ++ sampleRecord, 2⟩).2
      = ⟨[9, 9] ++ sampleRecord,
          2 + 76 + le32At (File.remaining ⟨[9, 9] ++ sampleRecord, 2⟩) 8⟩ :=
  have h := readMessageHeader_advances ⟨[9, 9] ++ sampleRecord, 2⟩
    (by decide) (by decide) (by decide)
  ⟨by decide, by decide, by decide, h.2 (by decide), h.1 (h.2 (by decide))⟩

/-- C9 as stated fails on a source with nothing left: `readMessageHeader`
returns the `io.EOF` of the read, not `ErrShortRead`. -/
theorem readMessageHeader_at_end_eof :
    (File.remaining ⟨[1, 2, 3], 3⟩).length < 76 ∧
    (readMessageHeader ⟨[1, 2, 3], 3⟩).1.2 = some GoError.EOF ∧
    (readMessageHeader ⟨[1, 2, 3], 3⟩).1.2 ≠ some ErrShortRead := by
  have h := readMessageHeader_of_short ⟨[1, 2, 3], 3⟩ (by decide)
  rw [if_pos (by decide)] at h
  refine ⟨by decide, ?_, ?_⟩ <;> simp [h]

/-- C9, amended: on a byte source with `n` bytes left from the current
position, `1 ≤ n < 76`, whatever they are, `readMessageHeader` fails with
`ErrShortRead`; with nothing left it fails with the `io.EOF` of the read. -/
theorem readMessageHeader_short_source (fh : File) (hlen : fh.remaining.length < 76) :
    (0 < fh.remaining.length → (readMessageHeader fh).1.2 = some ErrShortRead) ∧
    (fh.remaining.length = 0 → (readMessageHeader fh).1.2 = some GoError.EOF) := by
  have h := readMessageHeader_of_short fh hlen
  constructor
  · intro hpos
    rw [h, if_neg (by omega)]
  · intro hz
    rw [h, if_pos hz]

theorem readMessageHeader_short_source_witness :
    (File.remaining ⟨sampleRecord, 4⟩).length < 76 ∧
    (0 < (File.remaining ⟨sampleRecord, 4⟩).length →
      (readMessageHeader ⟨sampleRecord, 4⟩).1.2 = some ErrShortRead) ∧
    ((File.remaining ⟨sampleRecord, 4⟩).length = 0 →
      (readMessageHeader ⟨sampleRecord, 4⟩).1.2 = some GoError.EOF) :=
  ⟨by decide, readMessageHeader_short_source ⟨sampleRecord, 4⟩ (by decide)⟩

/-- C10 as stated fails when nothing at all follows the 76-byte block: for a
valid block declaring 3 subfield bytes, `readMessageHeader` returns the
`io.EOF` of the second read, not `ErrShortRead`. -/
theorem readMessageHeader_no_subfield_bytes_eof :
    (File.remaining ⟨sampleRecord.take 76, 0⟩).take 4 = [0x4A, 0x41, 0x4D, 0x00] ∧
    le16At (File.remaining ⟨sampleRecord.take 76, 0⟩) 4 = 1 ∧
    le32At (File.remaining ⟨sampleRecord.take 76, 0⟩) 8 = 3 ∧
    (File.remaining ⟨sampleRecord.take 76, 0⟩).length = 76 ∧
    (readMessageHeader ⟨sampleRecord.take 76, 0⟩).1.2 = some GoError.EOF ∧
    (readMessageHeader ⟨sampleRecord.take 76, 0⟩).1.2 ≠ some ErrShortRead := by
  have h := readMessageHeader_of_full ⟨sampleRecord.take 76, 0⟩ (by decide)
  rw [if_neg (by decide), if_neg (by decide), if_neg (by decide), if_pos (by decide)] at h
  refine ⟨by decide, by decide, by decide, by decide, ?_, ?_⟩ <;> simp [h]

/-- C10, amended: when the source provides a 76-byte block with a valid
signature and revision 1 that declares `S` subfield bytes, and at least one
but fewer than `S` bytes follow the block, `readMessageHeader` fails with
`ErrShortRead`; when `S > 0` and nothing follows the block, it fails with
the `io.EOF` of the second read. -/
theorem readMessageHeader_short_subfields (fh : File)
    (hblock : 76 ≤ fh.remaining.length)
    (hsig : fh.remaining.take 4 = [0x4A, 0x41, 0x4D, 0x00])
    (hrev : le16At fh.remaining 4 = 1)
    (hlen : fh.remaining.length - 76 < le32At fh.remaining 8) :
    (0 < fh.remaining.length - 76 → (readMessageHeader fh).1.2 = some ErrShortRead) ∧
    (fh.remaining.length - 76 = 0 → (readMessageHeader fh).1.2 = some GoError.EOF) := by
  have h := readMessageHeader_of_full fh hblock
  rw [if_neg (by rw [hsig]; decide), if_neg (by omega), if_neg (by omega)] at h
  constructor
  · intro hpos
    rw [h, if_neg (by omega)]
    by_cases hfit : fh.remaining.length < 76 + le32At fh.remaining 8
        ∧ fh.remaining.length ≤ 76 + maxRW
    · rw [if_pos hfit]
    · rw [if_neg hfit, if_pos (by omega)]
  · intro hz
    rw [h, if_pos (by omega)]

theorem readMessageHeader_short_subfields_witness :
    76 ≤ (File.remaining ⟨sampleRecord.take 78, 0⟩).length ∧
    (File.remaining ⟨sampleRecord.take 78, 0⟩).take 4 = [0x4A, 0x41, 0x4D, 0x00] ∧
    le16At (File.remaining ⟨sampleRecord.take 78, 0⟩) 4 = 1 ∧
    (File.remaining ⟨sampleRecord.take 78, 0⟩).length - 76
      < le32At (File.remaining ⟨sampleRecord.take 78, 0⟩) 8 ∧
    (0 < (File.remaining ⟨sampleRecord.take 78, 0⟩).length - 76 →
      (readMessageHeader ⟨sampleRecord.take 78, 0⟩).1.2 = some ErrShortRead) ∧
    ((File.remaining ⟨sampleRecord.take 78, 0⟩).length - 76 = 0 →
      (readMessageHeader ⟨sampleRecord.take 78, 0⟩).1.2 = some GoError.EOF) :=
  ⟨by decide, by decide, by decide, by decide,
    readMessageHeader_short_subfields ⟨sampleRecord.take 78, 0⟩
      (by decide) (by decide) (by decide) (by decide)⟩

/-! ## The stream producer -/

theorem replaceFrom_cr (s : GoString) :
    strings.replaceFrom [13] [10] 0 s = normalise s := by
  induction s with
  | nil => rfl
  | cons c cs ih =>
    unfold strings.replaceFrom
    by_cases hc : c = 13
    · subst hc
      simp [ih, normalise]
    · simp [ih, normalise, hc]

theorem ReplaceAll_cr (s : GoString) : strings.ReplaceAll s [13] [10] = normalise s :=
  replaceFrom_cr s

theorem readMessageHeader_bounds (fh : File) :
    (readMessageHeader fh).1.1.TextOffset < 2 ^ 32 ∧
    (readMessageHeader fh).1.1.TextLength < 2 ^ 32 := by
  by_cases h : fh.remaining.length < 76
  · rw [readMessageHeader_of_short fh h]
    split_ifs <;> simp [JAMMessageHeader.zero]
  · rw [readMessageHeader_of_full fh (by omega)]
    have h60 := le32At_lt fh.remaining 60
    have h64 := le32At_lt fh.remaining 64
    split_ifs <;> simp [JAMMessageHeader.zero, messageHeaderOf] <;> omega

theorem toUint32_of_lt (n : Nat) (h : n < 2 ^ 32) : toUint32 (n : Int) = n := by
  unfold toUint32
  omega

/-- The loop seeks before it reads: the offset the data handle starts with
does not matter. -/
theorem readMessagesLoop_offset (n : Nat) (hh : File) (dat : List Byte) (o : Nat) :
    readMessagesLoop n hh ⟨dat, o⟩ = readMessagesLoop n hh ⟨dat, 0⟩ := by
  cases n with
  | zero => rfl
  | succ n =>
    rw [readMessagesLoop, readMessagesLoop]
    dsimp only
    by_cases hneg : toInt64 ((readMessageHeader hh).1.1.TextOffset : Int) < 0
    · simp [File.Seek, hneg]
    · simp [File.Seek, hneg]

/-- One iteration of the loop, in closed form. -/
theorem readMessagesLoop_succ (n : Nat) (hh dh : File) :
    readMessagesLoop (n + 1) hh dh
      = match recordOutcome dh.content hh with
        | .error e => ([], some e)
        | .ok m =>
          (m :: (readMessagesLoop n (readMessageHeader hh).2 ⟨dh.content, 0⟩).1,
            (readMessagesLoop n (readMessageHeader hh).2 ⟨dh.content, 0⟩).2) := by
  obtain ⟨hO, hL⟩ := readMessageHeader_bounds hh
  unfold recordOutcome
  rw [readMessagesLoop]
  generalize readMessageHeader hh = r at hO hL
  obtain ⟨⟨hdr, err⟩, hh1⟩ := r
  cases err with
  | some e => simp
  | none =>
    simp only [] at hO hL
    have hseek : File.Seek dh (toInt64 (hdr.TextOffset : Int))
        = (⟨dh.content, hdr.TextOffset⟩, (hdr.TextOffset : Int), none) := by
      rw [toInt64_of_lt _ hO]
      unfold File.Seek
      rw [if_neg (by omega)]
      simp
    have hrem : File.remaining ⟨dh.content, hdr.TextOffset⟩
        = dh.content.drop hdr.TextOffset := rfl
    dsimp only
    rw [hseek]
    dsimp only
    rw [Read_makeBytes, hrem]
    unfold textOutcome
    by_cases h0 : hdr.TextLength = 0
    · rw [if_pos h0, if_pos h0]
      dsimp only
      rw [readMessagesLoop_offset n hh1 dh.content hdr.TextOffset]
      simp [h0, toUint32, ReplaceAll_cr, normalise]
    · rw [if_neg h0, if_neg h0]
      by_cases h1 : (dh.content.drop hdr.TextOffset).length = 0
      · rw [if_pos h1, if_pos h1]
        simp
      · rw [if_neg h1, if_neg h1]
        have hmax := maxRW_eq
        by_cases h2 : (dh.content.drop hdr.TextOffset).length < hdr.TextLength
            ∧ (dh.content.drop hdr.TextOffset).length ≤ maxRW
        · rw [if_pos h2, if_pos (Or.inl h2.1)]
          have h3 : ¬ toUint32 ((dh.content.length - hdr.TextOffset : Nat) : Int)
              = hdr.TextLength := by
            rw [List.length_drop] at h2
            rw [toUint32_of_lt _ (by omega)]; omega
          simp [h3]
        · rw [if_neg h2]
          by_cases hcap : maxRW < hdr.TextLength
          · rw [if_pos hcap, if_pos (Or.inr hcap)]
            have h3 : ¬ toUint32 ((maxRW : Nat) : Int) = hdr.TextLength := by
              rw [toUint32_of_lt _ (by omega)]; omega
            simp [h3]
          · have h4 : ¬ ((dh.content.drop hdr.TextOffset).length < hdr.TextLength
                ∨ maxRW < hdr.TextLength) := by omega
            rw [if_neg hcap, if_neg h4]
            dsimp only
            rw [readMessagesLoop_offset n hh1 dh.content (hdr.TextOffset + hdr.TextLength)]
            simp [toUint32_of_lt _ hL, ReplaceAll_cr]

/-- Decoding a well-formed record that the source holds at its position. -/
theorem readMessageHeader_of_wellFormed (fh : File) (r tail : List Byte)
    (hrem : fh.remaining = r ++ tail) (hwf : WellFormedRecord r)
    (hcap : le32At r 8 ≤ maxRW) :
    readMessageHeader fh
      = ((messageHeaderOf r, none), ⟨fh.content, fh.offset + r.length⟩) := by
  obtain ⟨hsig, hrev, hlen⟩ := hwf
  have hl : fh.remaining.length = r.length + tail.length := by
    rw [hrem, List.length_append]
  have h := readMessageHeader_of_full fh (by omega)
  have e4 : fh.remaining.take 4 = jamSignature := by
    rw [hrem, List.take_append_of_le_length (by omega), hsig]; rfl
  have e16 : le16At fh.remaining 4 = 1 := by
    rw [hrem, le16At_append _ _ _ (by omega), hrev]
  have e8 : le32At fh.remaining 8 = le32At r 8 := by
    rw [hrem, le32At_append _ _ _ (by omega)]
  have emh : messageHeaderOf fh.remaining = messageHeaderOf r := by
    unfold messageHeaderOf
    rw [hrem, le32At_append _ _ _ (by omega), le32At_append _ _ _ (by omega)]
  rw [if_neg (by simp [e4]), if_neg (by simp [e16]), emh, e8] at h
  rw [h]
  by_cases hS : le32At r 8 = 0
  · rw [if_pos hS]
    simp [hlen, hS]
  · rw [if_neg hS, if_neg (by omega), if_neg (by omega), if_neg (by omega)]
    simp [hlen, Nat.add_assoc]

theorem textOutcome_of_range (dat : List Byte) (O L : Nat) (h : O + L ≤ dat.length)
    (hcap : L ≤ maxRW) :
    textOutcome dat O L = .ok (normalise ((dat.drop O).take L)) := by
  unfold textOutcome
  by_cases h0 : L = 0
  · simp [h0, normalise]
  · rw [if_neg h0, List.length_drop, if_neg (by omega), if_neg (by omega)]

theorem textOutcome_ok (dat : List Byte) (O L : Nat) (t : GoString)
    (h : textOutcome dat O L = .ok t) :
    t = normalise ((dat.drop O).take L) ∧ t.length = L := by
  unfold textOutcome at h
  split_ifs at h with h0 h1 h2
  · cases h
    simp [h0, normalise]
  · cases h
    simp only [normalise, List.length_map, List.length_take, true_and]
    omega

theorem recordOutcome_ok (dat : List Byte) (hh : File) (m : JAMMessage)
    (h : recordOutcome dat hh = .ok m) :
    (readMessageHeader hh).1.2 = none ∧ m.Header = (readMessageHeader hh).1.1 ∧
    textOutcome dat m.Header.TextOffset m.Header.TextLength = .ok m.Text := by
  unfold recordOutcome at h
  split at h
  · cases h
  · rename_i herr
    split at h
    · cases h
    · rename_i t ht
      cases h
      exact ⟨herr, rfl, ht⟩

/-- The loop over well-formed records whose text ranges lie in the data
file, each subfield block and each text within what one read transfers. -/
theorem readMessagesLoop_wellFormed (dat rest : List Byte) (recs : List (List Byte)) :
    ∀ hh : File, hh.remaining = recs.flatten ++ rest →
      (∀ r ∈ recs, WellFormedRecord r) →
      (∀ r ∈ recs, le32At r 60 + le32At r 64 ≤ dat.length) →
      (∀ r ∈ recs, le32At r 8 ≤ maxRW ∧ le32At r 64 ≤ maxRW) →
      readMessagesLoop recs.length hh ⟨dat, 0⟩ = (recs.map (messageOf dat), none) := by
  induction recs with
  | nil => intro hh _ _ _ _; rfl
  | cons r rs ih =>
    intro hh hrem hwf hdat hcap
    have hrem1 : hh.remaining = r ++ (rs.flatten ++ rest) := by
      rw [hrem, List.flatten_cons, List.append_assoc]
    have hdec := readMessageHeader_of_wellFormed hh r _ hrem1 (hwf r (List.mem_cons_self _ _))
      (hcap r (List.mem_cons_self _ _)).1
    have htext := textOutcome_of_range dat _ _ (hdat r (List.mem_cons_self _ _))
      (hcap r (List.mem_cons_self _ _)).2
    have hout : recordOutcome dat hh = .ok (messageOf dat r) := by
      unfold recordOutcome
      rw [hdec]
      simp only [messageHeaderOf]
      rw [htext]
      rfl
    have hnext : File.remaining ⟨hh.content, hh.offset + r.length⟩ = rs.flatten ++ rest := by
      rw [remaining_advance, hrem1, List.drop_left]
    have hrec := ih ⟨hh.content, hh.offset + r.length⟩ hnext
      (fun x hx => hwf x (List.mem_cons_of_mem _ hx))
      (fun x hx => hdat x (List.mem_cons_of_mem _ hx))
      (fun x hx => hcap x (List.mem_cons_of_mem _ hx))
    rw [List.length_cons, readMessagesLoop_succ, hout, hdec]
    simp only [hrec, List.map_cons]

/-- The method `ReadMessages` once both files are open. -/
theorem ReadMessages_of_open (fs : FileSystem) (j : JAMBase) (hdrc dat : List Byte)
    (hH : fs j.headerFilePath = some hdrc) (hD : fs j.textDataFilePath = some dat) :
    j.ReadMessages fs
      = if (readFixedHeader ⟨hdrc, 0⟩).1.2 ≠ none then ([], (readFixedHeader ⟨hdrc, 0⟩).1.2)
        else
          readMessagesLoop (readFixedHeader ⟨hdrc, 0⟩).1.1.ActiveMessages.toNat
            (readFixedHeader ⟨hdrc, 0⟩).2 ⟨dat, 0⟩ := by
  unfold JAMBase.ReadMessages os.Open
  rw [hH, hD]

theorem readMessagesLoop_text (dat : List Byte) (n : Nat) :
    ∀ hh : File, ∀ m ∈ (readMessagesLoop n hh ⟨dat, 0⟩).1,
      m.Text = normalise ((dat.drop m.Header.TextOffset).take m.Header.TextLength) ∧
      m.Text.length = m.Header.TextLength := by
  induction n with
  | zero => intro hh m hm; simp [readMessagesLoop] at hm
  | succ n ih =>
    intro hh m hm
    rw [readMessagesLoop_succ] at hm
    cases hout : recordOutcome dat hh with
    | error e => simp [hout] at hm
    | ok m0 =>
      simp only [hout, List.mem_cons] at hm
      rcases hm with rfl | hm
      · exact textOutcome_ok dat _ _ _ (recordOutcome_ok dat hh m hout).2.2
      · exact ih _ m hm

/-- Every message `ReadMessages` emits carries the text its header locates. -/
theorem ReadMessages_text_of_mem (fs : FileSystem) (j : JAMBase) (dat : List Byte)
    (hD : fs j.textDataFilePath = some dat) (m : JAMMessage) (hm : m ∈ (j.ReadMessages fs).1) :
    m.Text = normalise ((dat.drop m.Header.TextOffset).take m.Header.TextLength) ∧
    m.Text.length = m.Header.TextLength := by
  cases hH : fs j.headerFilePath with
  | none => simp [JAMBase.ReadMessages, os.Open, hH] at hm
  | some hdrc =>
    rw [ReadMessages_of_open fs j hdrc dat hH hD] at hm
    split_ifs at hm with herr
    · simp at hm
    · exact readMessagesLoop_text dat _ _ m hm

/-- The method `ReadMessages` on a well-formed base. -/
theorem ReadMessages_of_wellFormed (fs : FileSystem) (j : JAMBase)
    (hdr rest dat : List Byte) (recs : List (List Byte))
    (hH : fs j.headerFilePath = some (hdr ++ (recs.flatten ++ rest)))
    (hD : fs j.textDataFilePath = some dat)
    (hlen : hdr.length = 1024) (hsig : hdr.take 4 = [0x4A, 0x41, 0x4D, 0x00])
    (hN : le32At hdr 12 = recs.length)
    (hwf : ∀ r ∈ recs, WellFormedRecord r)
    (hdat : ∀ r ∈ recs, le32At r 60 + le32At r 64 ≤ dat.length)
    (hcap : ∀ r ∈ recs, le32At r 8 ≤ maxRW ∧ le32At r 64 ≤ maxRW) :
    j.ReadMessages fs = (recs.map (messageOf dat), none) := by
  rw [ReadMessages_of_open fs j _ dat hH hD]
  have hrem : File.remaining ⟨hdr ++ (recs.flatten ++ rest), 0⟩ = hdr ++ (recs.flatten ++ rest) := by
    simp [File.remaining]
  have hfix := readFixedHeader_of_full ⟨hdr ++ (recs.flatten ++ rest), 0⟩
    (by rw [hrem, List.length_append]; omega)
  rw [hrem, if_pos (by rw [List.take_append_of_le_length (by omega), hsig]; rfl)] at hfix
  rw [hfix]
  have hcount : (fixedHeaderOf (hdr ++ (recs.flatten ++ rest))).ActiveMessages.toNat
      = recs.length := by
    simp only [fixedHeaderOf]
    rw [le32At_append _ _ _ (by omega), hN]
    simp
  simp only [ne_eq, not_true_eq_false, if_false, hcount]
  apply readMessagesLoop_wellFormed dat rest recs _ _ hwf hdat hcap
  simp only [File.remaining, Nat.zero_add]
  exact List.drop_left' hlen

theorem sampleRecord_wellFormed :
    ∀ r ∈ [sampleRecord, sampleRecord2], WellFormedRecord r := by
  intro r hr
  simp only [List.mem_cons, List.mem_singleton, List.not_mem_nil, or_false] at hr
  rcases hr with rfl | rfl <;> exact ⟨by decide, by decide, by decide⟩

theorem sampleRecord_in_range :
    ∀ r ∈ [sampleRecord, sampleRecord2],
      le32At r 60 + le32At r 64 ≤ sampleText.length := by
  intro r hr
  simp only [List.mem_cons, List.mem_singleton, List.not_mem_nil, or_false] at hr
  rcases hr with rfl | rfl <;> decide

theorem sampleRecord_within_cap :
    ∀ r ∈ [sampleRecord, sampleRecord2], le32At r 8 ≤ 2 ^ 30 ∧ le32At r 64 ≤ 2 ^ 30 := by
  intro r hr
  simp only [List.mem_cons, List.mem_singleton, List.not_mem_nil, or_false] at hr
  rcases hr with rfl | rfl <;> decide

theorem sampleFS_header :
    sampleFS sampleBase.headerFilePath
      = some (sampleFixedHeader ++ ([sampleRecord, sampleRecord2].flatten ++ [])) := by
  simp [sampleFS, sampleBase]

theorem sampleFS_data : sampleFS sampleBase.textDataFilePath = some sampleText := by
  simp [sampleFS, sampleBase]

/-- The run of `ReadMessages` on the sample base. -/
theorem sampleBase_run :
    sampleBase.ReadMessages sampleFS
      = ([messageOf sampleText sampleRecord, messageOf sampleText sampleRecord2], none) :=
  ReadMessages_of_wellFormed sampleFS sampleBase sampleFixedHeader [] sampleText
    [sampleRecord, sampleRecord2] sampleFS_header sampleFS_data sampleFixedHeader_length
    (by decide) (by decide) sampleRecord_wellFormed sampleRecord_in_range
    (by rw [maxRW_eq]; exact sampleRecord_within_cap)

/-- C4: for every message `ReadMessages` emits, with text offset `O` and text
length `L` in its header, `Text` is the `L` bytes of the data file at
`[O, O+L)` with every carriage return (`0x0D`) replaced by a newline (`0x0A`)
and every other byte unchanged in value and position. -/
theorem ReadMessages_text (fs : FileSystem) (j : JAMBase) (dat : List Byte)
    (hD : fs j.textDataFilePath = some dat) (m : JAMMessage)
    (hm : m ∈ (j.ReadMessages fs).1)
    (hrange : m.Header.TextOffset + m.Header.TextLength ≤ dat.length) :
    m.Text = ((dat.drop m.Header.TextOffset).take m.Header.TextLength).map
      (fun b => if b = 13 then 10 else b) ∧
    m.Text.length = m.Header.TextLength ∧
    ∀ i (hi : i < m.Header.TextLength),
      m.Text.getD i 0
        = if dat.get ⟨m.Header.TextOffset + i, by omega⟩ = 13 then 10
          else dat.get ⟨m.Header.TextOffset + i, by omega⟩ := by
  obtain ⟨htext, hlen⟩ := ReadMessages_text_of_mem fs j dat hD m hm
  refine ⟨htext, hlen, ?_⟩
  intro i hi
  rw [htext]
  simp only [normalise, List.getD_eq_getElem?_getD, List.getElem?_map,
    List.getElem?_take_of_lt hi, List.getElem?_drop, List.get_eq_getElem]
  rw [List.getElem?_eq_getElem (by omega)]
  simp

theorem ReadMessages_text_witness :
    sampleFS sampleBase.textDataFilePath = some sampleText ∧
    messageOf sampleText sampleRecord ∈ (sampleBase.ReadMessages sampleFS).1 ∧
    (messageOf sampleText sampleRecord).Text = [10, 66, 10, 10] ∧
    (messageOf sampleText sampleRecord).Text
      = ((sampleText.drop (messageOf sampleText sampleRecord).Header.TextOffset).take
          (messageOf sampleText sampleRecord).Header.TextLength).map
          (fun b => if b = 13 then 10 else b) :=
  have hm : messageOf sampleText sampleRecord ∈ (sampleBase.ReadMessages sampleFS).1 := by
    rw [sampleBase_run]; exact List.mem_cons_self _ _
  ⟨sampleFS_data, hm, by decide,
    (ReadMessages_text sampleFS sampleBase sampleText sampleFS_data
      (messageOf sampleText sampleRecord) hm (by decide)).1⟩

theorem singleFixedHeader_length : singleFixedHeader.length = 1024 := by
  simp only [singleFixedHeader, List.length_append, List.length_cons, List.length_nil,
    List.length_replicate]

theorem largeText_length : largeText.length = 1073741825 := by
  simp only [largeText, List.length_replicate]

theorem largeTextRecord_wellFormed : ∀ r ∈ [largeTextRecord], WellFormedRecord r := by
  intro r hr
  rw [List.mem_singleton] at hr
  subst hr
  exact ⟨by decide, by decide, by decide⟩

theorem largeTextRecord_in_range :
    ∀ r ∈ [largeTextRecord], le32At r 60 + le32At r 64 ≤ largeText.length := by
  intro r hr
  rw [List.mem_singleton] at hr
  subst hr
  rw [largeText_length]
  decide

theorem largeTextFS_header :
    largeTextFS sampleBase.headerFilePath
      = some (singleFixedHeader ++ ([largeTextRecord].flatten ++ [])) := by
  simp [largeTextFS, sampleBase]

theorem largeTextFS_data : largeTextFS sampleBase.textDataFilePath = some largeText := by
  simp [largeTextFS, sampleBase]

/-- The data-file steps for a text longer than one read transfers, when some
byte is there from its offset on: the count of the one read is short. -/
theorem textOutcome_over_cap (dat : List Byte) (O L : Nat) (hL : maxRW < L)
    (hdat : (dat.drop O).length ≠ 0) :
    textOutcome dat O L = .error ErrShortRead := by
  unfold textOutcome
  have hmax := maxRW_eq
  rw [if_neg (by omega), if_neg hdat, if_pos (Or.inr hL)]

/-- The method `ReadMessages` on a base whose first record is well formed and
locates a text longer than one read transfers. -/
theorem ReadMessages_first_text_over_cap (fs : FileSystem) (j : JAMBase)
    (hdr rest dat : List Byte) (recs : List (List Byte)) (r : List Byte)
    (hH : fs j.headerFilePath = some (hdr ++ ((r :: recs).flatten ++ rest)))
    (hD : fs j.textDataFilePath = some dat)
    (hlen : hdr.length = 1024) (hsig : hdr.take 4 = [0x4A, 0x41, 0x4D, 0x00])
    (hN : le32At hdr 12 = (r :: recs).length)
    (hwf : WellFormedRecord r) (hS : le32At r 8 ≤ maxRW) (hL : maxRW < le32At r 64)
    (hdat : (dat.drop (le32At r 60)).length ≠ 0) :
    j.ReadMessages fs = ([], some ErrShortRead) := by
  rw [ReadMessages_of_open fs j _ dat hH hD]
  have hrem : File.remaining ⟨hdr ++ ((r :: recs).flatten ++ rest), 0⟩
      = hdr ++ ((r :: recs).flatten ++ rest) := by
    simp [File.remaining]
  have hfix := readFixedHeader_of_full ⟨hdr ++ ((r :: recs).flatten ++ rest), 0⟩
    (by rw [hrem, List.length_append]; omega)
  rw [hrem, if_pos (by rw [List.take_append_of_le_length (by omega), hsig]; rfl)] at hfix
  rw [hfix]
  have hcount : (fixedHeaderOf (hdr ++ ((r :: recs).flatten ++ rest))).ActiveMessages.toNat
      = recs.length + 1 := by
    simp only [fixedHeaderOf]
    rw [le32At_append _ _ _ (by omega), hN]
    simp
  simp only [ne_eq, not_true_eq_false, if_false, hcount]
  have hnext : File.remaining ⟨hdr ++ ((r :: recs).flatten ++ rest), 0 + 1024⟩
      = r ++ (recs.flatten ++ rest) := by
    simp only [File.remaining, Nat.zero_add, List.flatten_cons, List.append_assoc]
    exact List.drop_left' hlen
  have hdec := readMessageHeader_of_wellFormed _ r _ hnext hwf hS
  have hout : recordOutcome dat ⟨hdr ++ ((r :: recs).flatten ++ rest), 0 + 1024⟩
      = .error ErrShortRead := by
    unfold recordOutcome
    rw [hdec]
    simp only [messageHeaderOf]
    rw [textOutcome_over_cap dat _ _ hL hdat]
  rw [readMessagesLoop_succ]
  simp only [hout]

/-- The run of `ReadMessages` on the base with the text of `2^30 + 1` bytes. -/
theorem largeTextBase_run : sampleBase.ReadMessages largeTextFS = ([], some ErrShortRead) :=
  ReadMessages_first_text_over_cap largeTextFS sampleBase singleFixedHeader [] largeText []
    largeTextRecord largeTextFS_header largeTextFS_data singleFixedHeader_length (by decide)
    (by decide) (largeTextRecord_wellFormed _ (List.mem_singleton.mpr rfl)) (by decide)
    (by decide)
    (by
      have h60 : le32At largeTextRecord 60 = 0 := by decide
      rw [h60, List.length_drop, largeText_length]
      omega)

theorem largeRecord_wellFormed : ∀ r ∈ [largeRecord], WellFormedRecord r := by
  intro r hr
  rw [List.mem_singleton] at hr
  subst hr
  exact ⟨largeRecord_signature, largeRecord_revision,
    by rw [largeRecord_length, largeRecord_declares]⟩

theorem largeRecord_in_range :
    ∀ r ∈ [largeRecord], le32At r 60 + le32At r 64 ≤ sampleText.length := by
  intro r hr
  rw [List.mem_singleton] at hr
  subst hr
  unfold largeRecord
  rw [le32At_append _ _ _ (by rw [largeBlock_length]; omega),
    le32At_append _ _ _ (by rw [largeBlock_length]; omega)]
  decide

theorem largeSubfieldsFS_header :
    largeSubfieldsFS sampleBase.headerFilePath
      = some (singleFixedHeader ++ ([largeRecord].flatten ++ [])) := by
  simp [largeSubfieldsFS, sampleBase]

theorem largeSubfieldsFS_data :
    largeSubfieldsFS sampleBase.textDataFilePath = some sampleText := by
  simp [largeSubfieldsFS, sampleBase]

/-- Decoding a well-formed record whose subfield block is longer than one
read transfers. -/
theorem readMessageHeader_over_cap (fh : File) (r tail : List Byte)
    (hrem : fh.remaining = r ++ tail) (hwf : WellFormedRecord r)
    (hcap : maxRW < le32At r 8) :
    readMessageHeader fh
      = ((messageHeaderOf r, some ErrShortRead), ⟨fh.content, fh.offset + 76 + maxRW⟩) := by
  obtain ⟨hsig, hrev, hlen⟩ := hwf
  have hmax := maxRW_eq
  have hl : fh.remaining.length = r.length + tail.length := by
    rw [hrem, List.length_append]
  have h := readMessageHeader_of_full fh (by omega)
  have e4 : fh.remaining.take 4 = jamSignature := by
    rw [hrem, List.take_append_of_le_length (by omega), hsig]; rfl
  have e16 : le16At fh.remaining 4 = 1 := by
    rw [hrem, le16At_append _ _ _ (by omega), hrev]
  have e8 : le32At fh.remaining 8 = le32At r 8 := by
    rw [hrem, le32At_append _ _ _ (by omega)]
  have emh : messageHeaderOf fh.remaining = messageHeaderOf r := by
    unfold messageHeaderOf
    rw [hrem, le32At_append _ _ _ (by omega), le32At_append _ _ _ (by omega)]
  rw [if_neg (by simp [e4]), if_neg (by simp [e16]), emh, e8, if_neg (by omega),
    if_neg (by omega), if_neg (by omega), if_pos hcap] at h
  exact h

/-- The method `ReadMessages` on a base whose first record is well formed and
has a subfield block longer than one read transfers. -/
theorem ReadMessages_first_subfields_over_cap (fs : FileSystem) (j : JAMBase)
    (hdr rest dat : List Byte) (recs : List (List Byte)) (r : List Byte)
    (hH : fs j.headerFilePath = some (hdr ++ ((r :: recs).flatten ++ rest)))
    (hD : fs j.textDataFilePath = some dat)
    (hlen : hdr.length = 1024) (hsig : hdr.take 4 = [0x4A, 0x41, 0x4D, 0x00])
    (hN : le32At hdr 12 = (r :: recs).length)
    (hwf : WellFormedRecord r) (hS : maxRW < le32At r 8) :
    j.ReadMessages fs = ([], some ErrShortRead) := by
  rw [ReadMessages_of_open fs j _ dat hH hD]
  have hrem : File.remaining ⟨hdr ++ ((r :: recs).flatten ++ rest), 0⟩
      = hdr ++ ((r :: recs).flatten ++ rest) := by
    simp [File.remaining]
  have hfix := readFixedHeader_of_full ⟨hdr ++ ((r :: recs).flatten ++ rest), 0⟩
    (by rw [hrem, List.length_append]; omega)
  rw [hrem, if_pos (by rw [List.take_append_of_le_length (by omega), hsig]; rfl)] at hfix
  rw [hfix]
  have hcount : (fixedHeaderOf (hdr ++ ((r :: recs).flatten ++ rest))).ActiveMessages.toNat
      = recs.length + 1 := by
    simp only [fixedHeaderOf]
    rw [le32At_append _ _ _ (by omega), hN]
    simp
  simp only [ne_eq, not_true_eq_false, if_false, hcount]
  have hnext : File.remaining ⟨hdr ++ ((r :: recs).flatten ++ rest), 0 + 1024⟩
      = r ++ (recs.flatten ++ rest) := by
    simp only [File.remaining, Nat.zero_add, List.flatten_cons, List.append_assoc]
    exact List.drop_left' hlen
  have hdec := readMessageHeader_over_cap _ r _ hnext hwf hS
  have hout : recordOutcome dat ⟨hdr ++ ((r :: recs).flatten ++ rest), 0 + 1024⟩
      = .error ErrShortRead := by
    unfold recordOutcome
    rw [hdec]
  rw [readMessagesLoop_succ]
  simp only [hout]

/-- The run of `ReadMessages` on the base with the record of `2^30 + 1`
subfield bytes. -/
theorem largeSubfieldsBase_run :
    sampleBase.ReadMessages largeSubfieldsFS = ([], some ErrShortRead) :=
  ReadMessages_first_subfields_over_cap largeSubfieldsFS sampleBase singleFixedHeader []
    sampleText [] largeRecord largeSubfieldsFS_header largeSubfieldsFS_data
    singleFixedHeader_length (by decide) (by decide)
    (largeRecord_wellFormed _ (List.mem_singleton.mpr rfl))
    (by rw [largeRecord_declares, maxRW_eq]; omega)

/-- C5 as stated fails on a base with one well-formed record whose text of
`2^30 + 1` bytes is all in the data file: the one read of the text returns
`2^30` bytes, and `ReadMessages` emits no message and ends with
`ErrShortRead`.  It fails in the same way on a base with one complete record
of `2^30 + 1` subfield bytes. -/
theorem ReadMessages_large_text_short :
    largeTextFS sampleBase.headerFilePath
      = some (singleFixedHeader ++ ([largeTextRecord].flatten ++ [])) ∧
    largeTextFS sampleBase.textDataFilePath = some largeText ∧
    singleFixedHeader.length = 1024 ∧
    singleFixedHeader.take 4 = [0x4A, 0x41, 0x4D, 0x00] ∧
    le32At singleFixedHeader 12 = [largeTextRecord].length ∧
    (∀ r ∈ [largeTextRecord], WellFormedRecord r) ∧
    (∀ r ∈ [largeTextRecord], le32At r 60 + le32At r 64 ≤ largeText.length) ∧
    sampleBase.ReadMessages largeTextFS = ([], some ErrShortRead) ∧
    (sampleBase.ReadMessages largeTextFS).2 ≠ none ∧
    (sampleBase.ReadMessages largeTextFS).1.length ≠ le32At singleFixedHeader 12 ∧
    largeSubfieldsFS sampleBase.headerFilePath
      = some (singleFixedHeader ++ ([largeRecord].flatten ++ [])) ∧
    largeSubfieldsFS sampleBase.textDataFilePath = some sampleText ∧
    le32At singleFixedHeader 12 = [largeRecord].length ∧
    (∀ r ∈ [largeRecord], WellFormedRecord r) ∧
    (∀ r ∈ [largeRecord], le32At r 60 + le32At r 64 ≤ sampleText.length) ∧
    sampleBase.ReadMessages largeSubfieldsFS = ([], some ErrShortRead) := by
  refine ⟨largeTextFS_header, largeTextFS_data, singleFixedHeader_length, by decide,
    by decide, largeTextRecord_wellFormed, largeTextRecord_in_range, largeTextBase_run, ?_, ?_,
    largeSubfieldsFS_header, largeSubfieldsFS_data, by decide, largeRecord_wellFormed,
    largeRecord_in_range, largeSubfieldsBase_run⟩
  · rw [largeTextBase_run]
    simp
  · rw [largeTextBase_run]
    decide

/-- C5, amended: if the header file is a valid 1024-byte fixed header whose
active-message count is `N`, followed by `N` well-formed message records (and
then anything) whose subfield-block lengths and text lengths are at most
`2^30`, the most one read transfers, and the data file contains the range
`[TextOffset, TextOffset+TextLength)` of every record, then `ReadMessages`
emits no error and exactly `N` messages, the `i`-th of which carries the
`TextOffset`, `TextLength` and normalised text of the `i`-th record in
on-disk order. -/
theorem ReadMessages_wellFormed_base (fs : FileSystem) (j : JAMBase)
    (hdr rest dat : List Byte) (recs : List (List Byte))
    (hH : fs j.headerFilePath = some (hdr ++ (recs.flatten ++ rest)))
    (hD : fs j.textDataFilePath = some dat)
    (hlen : hdr.length = 1024) (hsig : hdr.take 4 = [0x4A, 0x41, 0x4D, 0x00])
    (hN : le32At hdr 12 = recs.length)
    (hwf : ∀ r ∈ recs, WellFormedRecord r)
    (hdat : ∀ r ∈ recs, le32At r 60 + le32At r 64 ≤ dat.length)
    (hcap : ∀ r ∈ recs, le32At r 8 ≤ 2 ^ 30 ∧ le32At r 64 ≤ 2 ^ 30) :
    (j.ReadMessages fs).2 = none ∧
    (j.ReadMessages fs).1.length = le32At hdr 12 ∧
    (j.ReadMessages fs).1 = recs.map (fun r =>
      { Header := { JAMMessageHeader.zero with
                    TextOffset := le32At r 60, TextLength := le32At r 64 }
        Text := ((dat.drop (le32At r 60)).take (le32At r 64)).map
          (fun b => if b = 13 then 10 else b) }) := by
  rw [ReadMessages_of_wellFormed fs j hdr rest dat recs hH hD hlen hsig hN hwf hdat
    (by rw [maxRW_eq]; exact hcap)]
  refine ⟨rfl, ?_, rfl⟩
  simp [hN]

theorem ReadMessages_wellFormed_base_witness :
    (sampleBase.ReadMessages sampleFS).2 = none ∧
    (sampleBase.ReadMessages sampleFS).1.length = le32At sampleFixedHeader 12 ∧
    (sampleBase.ReadMessages sampleFS).1 = [sampleRecord, sampleRecord2].map (fun r =>
      { Header := { JAMMessageHeader.zero with
                    TextOffset := le32At r 60, TextLength := le32At r 64 }
        Text := ((sampleText.drop (le32At r 60)).take (le32At r 64)).map
          (fun b => if b = 13 then 10 else b) }) :=
  ReadMessages_wellFormed_base sampleFS sampleBase sampleFixedHeader [] sampleText
    [sampleRecord, sampleRecord2] sampleFS_header sampleFS_data sampleFixedHeader_length
    (by decide) (by decide) sampleRecord_wellFormed sampleRecord_in_range
    sampleRecord_within_cap

/-- The trace of the loop: every emitted message is the outcome of the
iteration at its index, and the loop ends either after all `n` iterations
without error, or at the first failing iteration with its error. -/
theorem readMessagesLoop_trace (dat : List Byte) (n : Nat) :
    ∀ hh : File,
      (∀ i m, (readMessagesLoop n hh ⟨dat, 0⟩).1[i]? = some m →
        recordOutcome dat (handleAfter i hh) = .ok m) ∧
      (((readMessagesLoop n hh ⟨dat, 0⟩).2 = none ∧
          (readMessagesLoop n hh ⟨dat, 0⟩).1.length = n) ∨
        (∃ e, (readMessagesLoop n hh ⟨dat, 0⟩).2 = some e ∧
          (readMessagesLoop n hh ⟨dat, 0⟩).1.length < n ∧
          recordOutcome dat (handleAfter (readMessagesLoop n hh ⟨dat, 0⟩).1.length hh)
            = .error e)) := by
  induction n with
  | zero =>
    intro hh
    simp [readMessagesLoop]
  | succ n ih =>
    intro hh
    rw [readMessagesLoop_succ]
    cases hout : recordOutcome dat hh with
    | error e =>
      refine ⟨?_, Or.inr ⟨e, rfl, ?_, ?_⟩⟩
      · intro i m h
        simp at h
      · simp
      · simpa [handleAfter] using hout
    | ok m0 =>
      obtain ⟨ih1, ih2⟩ := ih (readMessageHeader hh).2
      refine ⟨?_, ?_⟩
      · intro i m h
        cases i with
        | zero =>
          simp only [List.getElem?_cons_zero, Option.some.injEq] at h
          subst h
          simpa [handleAfter] using hout
        | succ i =>
          simp only [List.getElem?_cons_succ] at h
          simpa [handleAfter] using ih1 i m h
      · rcases ih2 with ⟨h1, h2⟩ | ⟨e, h1, h2, h3⟩
        · exact Or.inl ⟨h1, by simp [h2]⟩
        · refine Or.inr ⟨e, h1, by simpa using h2, ?_⟩
          simpa [handleAfter] using h3

/-- C6: with both files open, the output of `ReadMessages` is a list of
messages followed by a clean end or by one error.  When the fixed-header
decode fails, nothing is emitted and its error is reported.  Otherwise, with
`N` the decoded active-message count, the `i`-th emitted message is the
outcome of the `i`-th record in on-disk order (each decoded where the
previous decode left the header source), and either no error is reported and
`N` messages were emitted, or an error is reported, fewer than `N` messages
were emitted, and the error is that of the first failing record, at which the
stream stops.  No error is reported exactly when the fixed header and all `N`
records succeed. -/
theorem ReadMessages_fail_fast (fs : FileSystem) (j : JAMBase) (hdrc dat : List Byte)
    (hH : fs j.headerFilePath = some hdrc) (hD : fs j.textDataFilePath = some dat) :
    (∀ e, (readFixedHeader ⟨hdrc, 0⟩).1.2 = some e → j.ReadMessages fs = ([], some e)) ∧
    ((readFixedHeader ⟨hdrc, 0⟩).1.2 = none →
      (∀ i m, (j.ReadMessages fs).1[i]? = some m →
        recordOutcome dat (handleAfter i (readFixedHeader ⟨hdrc, 0⟩).2) = .ok m) ∧
      (((j.ReadMessages fs).2 = none ∧
          (j.ReadMessages fs).1.length
            = (readFixedHeader ⟨hdrc, 0⟩).1.1.ActiveMessages.toNat) ∨
        (∃ e, (j.ReadMessages fs).2 = some e ∧
          (j.ReadMessages fs).1.length
            < (readFixedHeader ⟨hdrc, 0⟩).1.1.ActiveMessages.toNat ∧
          recordOutcome dat
              (handleAfter (j.ReadMessages fs).1.length (readFixedHeader ⟨hdrc, 0⟩).2)
            = .error e))) ∧
    ((j.ReadMessages fs).2 = none ↔
      (readFixedHeader ⟨hdrc, 0⟩).1.2 = none ∧
      ∀ i < (readFixedHeader ⟨hdrc, 0⟩).1.1.ActiveMessages.toNat,
        ∃ m, recordOutcome dat (handleAfter i (readFixedHeader ⟨hdrc, 0⟩).2) = .ok m) := by
  rw [ReadMessages_of_open fs j hdrc dat hH hD]
  cases hfix : (readFixedHeader ⟨hdrc, 0⟩).1.2 with
  | some e0 => simp
  | none =>
    simp only [ne_eq, not_true_eq_false, if_false]
    obtain ⟨h1, h2⟩ := readMessagesLoop_trace dat
      (readFixedHeader ⟨hdrc, 0⟩).1.1.ActiveMessages.toNat (readFixedHeader ⟨hdrc, 0⟩).2
    refine ⟨by simp, fun _ => ⟨h1, h2⟩, ?_⟩
    constructor
    · intro hnone
      refine ⟨trivial, ?_⟩
      intro i hi
      rcases h2 with ⟨_, hlen⟩ | ⟨e, he, _, _⟩
      · rw [← hlen] at hi
        exact ⟨_, h1 i _ (List.getElem?_eq_getElem hi)⟩
      · rw [hnone] at he
        cases he
    · rintro ⟨_, hall⟩
      rcases h2 with ⟨hnone, _⟩ | ⟨e, _, hlt, hfail⟩
      · exact hnone
      · obtain ⟨m, hm⟩ := hall _ hlt
        rw [hm] at hfail
        cases hfail

theorem truncatedFS_header :
    truncatedFS sampleBase.headerFilePath
      = some (sampleFixedHeader ++ (sampleRecord ++ sampleRecord2.take 10)) := by
  simp [truncatedFS, sampleBase]

theorem truncatedFS_data : truncatedFS sampleBase.textDataFilePath = some sampleText := by
  simp [truncatedFS, sampleBase]

theorem ReadMessages_fail_fast_witness :
    truncatedFS sampleBase.headerFilePath
      = some (sampleFixedHeader ++ (sampleRecord ++ sampleRecord2.take 10)) ∧
    truncatedFS sampleBase.textDataFilePath = some sampleText ∧
    ((sampleBase.ReadMessages truncatedFS).2 = none ↔
      (readFixedHeader ⟨sampleFixedHeader ++ (sampleRecord ++ sampleRecord2.take 10), 0⟩).1.2
        = none ∧
      ∀ i < (readFixedHeader
            ⟨sampleFixedHeader ++ (sampleRecord ++ sampleRecord2.take 10), 0⟩).1.1.ActiveMessages.toNat,
        ∃ m, recordOutcome sampleText
          (handleAfter i (readFixedHeader
            ⟨sampleFixedHeader ++ (sampleRecord ++ sampleRecord2.take 10), 0⟩).2) = .ok m) :=
  ⟨truncatedFS_header, truncatedFS_data,
    (ReadMessages_fail_fast truncatedFS sampleBase _ sampleText truncatedFS_header
      truncatedFS_data).2.2⟩

set_option maxRecDepth 100000 in
/-- The run of `ReadMessages` on the truncated sample base: the first message,
then the short read of the second record. -/
theorem truncatedBase_run :
    sampleBase.ReadMessages truncatedFS
      = ([messageOf sampleText sampleRecord], some ErrShortRead) := by
  decide


/-! ## The message record decoder: signature and revision -/

/-- C11: on a byte source with at least 76 bytes left whose next 4 bytes are
not `4A 41 4D 00`, `readMessageHeader` fails with `ErrNoJAMSignature`,
whatever the revision field, the declared subfield-block length and the
other bytes are. -/
theorem readMessageHeader_bad_signature (fh : File) (hlen : 76 ≤ fh.remaining.length)
    (hsig : fh.remaining.take 4 ≠ [0x4A, 0x41, 0x4D, 0x00]) :
    (readMessageHeader fh).1.2 = some ErrNoJAMSignature := by
  rw [readMessageHeader_of_full fh hlen, if_pos (by simpa [jamSignature] using hsig)]

theorem readMessageHeader_bad_signature_witness :
    76 ≤ (File.remaining ⟨[9, 9] ++ sampleBadSignature, 2⟩).length ∧
    (File.remaining ⟨[9, 9] ++ sampleBadSignature, 2⟩).take 4 ≠ [0x4A, 0x41, 0x4D, 0x00] ∧
    (readMessageHeader ⟨[9, 9] ++ sampleBadSignature, 2⟩).1.2 = some ErrNoJAMSignature :=
  ⟨by decide, by decide,
    readMessageHeader_bad_signature ⟨[9, 9] ++ sampleBadSignature, 2⟩ (by decide) (by decide)⟩

/-- C12: on a byte source with at least 76 bytes left that starts with the
signature, `readMessageHeader` fails with the error built by `fmt.Errorf`
exactly when the little-endian `uint16` at record bytes `[4:6]` is not 1;
the message is then `Unknown JAM header revision: ` followed by that value
in decimal, whatever subfield-block length the record declares.  The value
is one of `0..65535`. -/
theorem readMessageHeader_revision (fh : File) (hlen : 76 ≤ fh.remaining.length)
    (hsig : fh.remaining.take 4 = [0x4A, 0x41, 0x4D, 0x00]) :
    ((∃ msg, (readMessageHeader fh).1.2 = some (.errorf msg)) ↔ le16At fh.remaining 4 ≠ 1) ∧
    (le16At fh.remaining 4 ≠ 1 →
      (readMessageHeader fh).1.2
        = some (.errorf ("Unknown JAM header revision: "
            ++ toString (le16At fh.remaining 4)))) ∧
    le16At fh.remaining 4 < 65536 := by
  have h := readMessageHeader_of_full fh hlen
  rw [if_neg (by rw [hsig]; decide)] at h
  have hlt : le16At fh.remaining 4 < 65536 := by
    unfold le16At
    have h0 := (fh.remaining.getD 4 0).isLt
    have h1 := (fh.remaining.getD (4 + 1) 0).isLt
    omega
  by_cases hrev : le16At fh.remaining 4 = 1
  · rw [if_neg (by simp [hrev])] at h
    refine ⟨?_, fun hne => absurd hrev hne, hlt⟩
    constructor
    · rintro ⟨msg, hmsg⟩
      rw [h] at hmsg
      split_ifs at hmsg <;> simp at hmsg
    · intro hne
      exact absurd hrev hne
  · rw [if_pos hrev] at h
    refine ⟨⟨fun _ => hrev, fun _ => ⟨_, by rw [h]⟩⟩, fun _ => by rw [h], hlt⟩

theorem readMessageHeader_revision_witness :
    76 ≤ (File.remaining ⟨sampleRecordRev2, 0⟩).length ∧
    (File.remaining ⟨sampleRecordRev2, 0⟩).take 4 = [0x4A, 0x41, 0x4D, 0x00] ∧
    le16At (File.remaining ⟨sampleRecordRev2, 0⟩) 4 = 2 ∧
    (readMessageHeader ⟨sampleRecordRev2, 0⟩).1.2
      = some (.errorf "Unknown JAM header revision: 2") :=
  ⟨by decide, by decide, by decide,
    (readMessageHeader_revision ⟨sampleRecordRev2, 0⟩ (by decide) (by decide)).2.1 (by decide)⟩

/-- C13: on a byte source at offset `p` with at least 76 bytes left, a valid
signature and a revision field other than 1, `readMessageHeader` fails with
the revision error and leaves the source, its content unchanged, at offset
`p + 76`: the fixed block is consumed and no subfield byte is read, whatever
subfield-block length the record declares. -/
theorem readMessageHeader_revision_position (fh : File) (hlen : 76 ≤ fh.remaining.length)
    (hsig : fh.remaining.take 4 = [0x4A, 0x41, 0x4D, 0x00])
    (hrev : le16At fh.remaining 4 ≠ 1) :
    (readMessageHeader fh).1.2
      = some (.errorf ("Unknown JAM header revision: "
          ++ toString (le16At fh.remaining 4))) ∧
    (readMessageHeader fh).2 = ⟨fh.content, fh.offset + 76⟩ := by
  have h := readMessageHeader_of_full fh hlen
  rw [if_neg (by rw [hsig]; decide), if_pos hrev] at h
  rw [h]
  exact ⟨rfl, rfl⟩

theorem readMessageHeader_revision_position_witness :
    76 ≤ (File.remaining ⟨[9, 9] ++ (sampleRecordRev2 ++ [7, 7, 7, 7]), 2⟩).length ∧
    (File.remaining ⟨[9, 9] ++ (sampleRecordRev2 ++ [7, 7, 7, 7]), 2⟩).take 4
      = [0x4A, 0x41, 0x4D, 0x00] ∧
    le16At (File.remaining ⟨[9, 9] ++ (sampleRecordRev2 ++ [7, 7, 7, 7]), 2⟩) 4 ≠ 1 ∧
    (readMessageHeader ⟨[9, 9] ++ (sampleRecordRev2 ++ [7, 7, 7, 7]), 2⟩).1.2
      = some (.errorf ("Unknown JAM header revision: "
          ++ toString (le16At
              (File.remaining ⟨[9, 9] ++ (sampleRecordRev2 ++ [7, 7, 7, 7]), 2⟩) 4))) ∧
    (readMessageHeader ⟨[9, 9] ++ (sampleRecordRev2 ++ [7, 7, 7, 7]), 2⟩).2
      = ⟨[9, 9] ++ (sampleRecordRev2 ++ [7, 7, 7, 7]), 2 + 76⟩ :=
  ⟨by decide, by decide, by decide,
    readMessageHeader_revision_position ⟨[9, 9] ++ (sampleRecordRev2 ++ [7, 7, 7, 7]), 2⟩
      (by decide) (by decide) (by decide)⟩


/-! ## The fixed header decoder: frame and inputs read -/

theorem sampleFixedHeaderB_length : sampleFixedHeaderB.length = 1026 := by
  simp only [sampleFixedHeaderB, List.length_append, List.length_cons, List.length_nil,
    List.length_replicate]

/-- C15: on a byte source at offset 0 that holds at least 1024 bytes,
`readFixedHeader` returns without error or with `ErrNoJAMSignature`, and in
both cases leaves the source with the same content at offset 1024. -/
theorem readFixedHeader_consumes (content : List Byte) (hlen : 1024 ≤ content.length) :
    ((readFixedHeader ⟨content, 0⟩).1.2 = none ∨
      (readFixedHeader ⟨content, 0⟩).1.2 = some ErrNoJAMSignature) ∧
    (readFixedHeader ⟨content, 0⟩).2 = ⟨content, 1024⟩ := by
  have hrem : File.remaining ⟨content, 0⟩ = content := by simp [File.remaining]
  have h := readFixedHeader_of_full ⟨content, 0⟩ (by rw [hrem]; exact hlen)
  rw [h]
  split_ifs <;> simp

theorem readFixedHeader_consumes_witness :
    1024 ≤ sampleFixedHeaderB.length ∧
    ((readFixedHeader ⟨sampleFixedHeaderB, 0⟩).1.2 = none ∨
      (readFixedHeader ⟨sampleFixedHeaderB, 0⟩).1.2 = some ErrNoJAMSignature) ∧
    (readFixedHeader ⟨sampleFixedHeaderB, 0⟩).2 = ⟨sampleFixedHeaderB, 1024⟩ :=
  ⟨by rw [sampleFixedHeaderB_length]; decide,
    readFixedHeader_consumes sampleFixedHeaderB (by rw [sampleFixedHeaderB_length]; decide)⟩

theorem getD_eq_of_take_eq (a b : List Byte) (n k : Nat) (h : a.take n = b.take n)
    (hk : k < n) : a.getD k 0 = b.getD k 0 := by
  rw [← getD_take_of_lt a n k hk, ← getD_take_of_lt b n k hk, h]

theorem le32At_eq_of_take_eq (a b : List Byte) (n i : Nat) (h : a.take n = b.take n)
    (hi : i + 4 ≤ n) : le32At a i = le32At b i := by
  rw [← le32At_take a n i hi, ← le32At_take b n i hi, h]

theorem le32At_eq_of_slice_eq (a b : List Byte) (lo hi : Nat)
    (h : slice a lo hi = slice b lo hi) (hi4 : lo + 4 ≤ hi) : le32At a lo = le32At b lo := by
  rw [← le32At_slice a lo hi hi4, ← le32At_slice b lo hi hi4, h]

/-- C16: two byte sources of at least 1024 bytes that agree on bytes `[0:16)`
and `[20:24)` get the same result from `readFixedHeader`, the same summary
and the same error: bytes 16..19 and the bytes from 24 on do not matter. -/
theorem readFixedHeader_reads_only (c₁ c₂ : List Byte)
    (hlen₁ : 1024 ≤ c₁.length) (hlen₂ : 1024 ≤ c₂.length)
    (hhead : c₁.take 16 = c₂.take 16) (hbase : slice c₁ 20 24 = slice c₂ 20 24) :
    (readFixedHeader ⟨c₁, 0⟩).1 = (readFixedHeader ⟨c₂, 0⟩).1 := by
  have hrem₁ : File.remaining ⟨c₁, 0⟩ = c₁ := by simp [File.remaining]
  have hrem₂ : File.remaining ⟨c₂, 0⟩ = c₂ := by simp [File.remaining]
  have h₁ := readFixedHeader_of_full ⟨c₁, 0⟩ (by rw [hrem₁]; exact hlen₁)
  have h₂ := readFixedHeader_of_full ⟨c₂, 0⟩ (by rw [hrem₂]; exact hlen₂)
  rw [hrem₁] at h₁
  rw [hrem₂] at h₂
  have hsig : c₁.take 4 = c₂.take 4 := by
    have := congrArg (List.take 4) hhead
    simpa [List.take_take] using this
  have hfix : fixedHeaderOf c₁ = fixedHeaderOf c₂ := by
    unfold fixedHeaderOf
    rw [le32At_eq_of_take_eq c₁ c₂ 16 4 hhead (by omega),
      le32At_eq_of_take_eq c₁ c₂ 16 8 hhead (by omega),
      le32At_eq_of_take_eq c₁ c₂ 16 12 hhead (by omega),
      le32At_eq_of_slice_eq c₁ c₂ 20 24 hbase (by omega)]
  rw [h₁, h₂, hsig, hfix]
  split_ifs <;> rfl

theorem readFixedHeader_reads_only_witness :
    1024 ≤ sampleFixedHeader.length ∧ 1024 ≤ sampleFixedHeaderB.length ∧
    sampleFixedHeader.take 16 = sampleFixedHeaderB.take 16 ∧
    slice sampleFixedHeader 20 24 = slice sampleFixedHeaderB 20 24 ∧
    sampleFixedHeader ≠ sampleFixedHeaderB ∧
    (readFixedHeader ⟨sampleFixedHeader, 0⟩).1 = (readFixedHeader ⟨sampleFixedHeaderB, 0⟩).1 :=
  ⟨by rw [sampleFixedHeader_length], by rw [sampleFixedHeaderB_length]; decide,
    by decide, by decide, by decide,
    readFixedHeader_reads_only sampleFixedHeader sampleFixedHeaderB
      (by rw [sampleFixedHeader_length]) (by rw [sampleFixedHeaderB_length]; decide)
      (by decide) (by decide)⟩


/-! ## Path derivation -/

theorem slice_last (stem ext : List Byte) (n : Nat) (h : ext.length = n) :
    slice (stem ++ ext) ((stem ++ ext).length - n) (stem ++ ext).length = ext := by
  unfold slice
  have h1 : (stem ++ ext).length - n = stem.length := by
    rw [List.length_append]; omega
  have h2 : (stem ++ ext).length - stem.length = ext.length := by
    rw [List.length_append]; omega
  rw [h1, h2, List.drop_left, List.take_length]

theorem slice_stem_dot (stem rest : List Byte) (d : Byte) (h : rest.length = 3) :
    slice (stem ++ d :: rest) 0 ((stem ++ d :: rest).length - 3) = stem ++ [d] := by
  unfold slice
  have h1 : (stem ++ d :: rest).length - 3 - 0 = (stem ++ [d]).length := by
    simp only [List.length_append, List.length_cons, List.length_nil]; omega
  have h2 : stem ++ d :: rest = (stem ++ [d]) ++ rest := by simp
  rw [h1, List.drop_zero, h2, List.take_left]

theorem relatedPath_lower (mapUpper : GoString → GoString) (stem e : GoString) :
    relatedPathFromHeaderPath mapUpper (stem ++ [46, 106, 104, 114]) e
      = (stem ++ [46] ++ e, none) := by
  unfold relatedPathFromHeaderPath
  have hl : ¬ (stem ++ [46, 106, 104, 114]).length < 4 := by
    simp only [List.length_append, List.length_cons, List.length_nil]; omega
  simp only [if_neg hl, slice_last stem [46, 106, 104, 114] 4 rfl,
    slice_stem_dot stem [106, 104, 114] 46 rfl]
  simp

theorem relatedPath_upper (mapUpper : GoString → GoString) (stem e : GoString) :
    relatedPathFromHeaderPath mapUpper (stem ++ [46, 74, 72, 82]) e
      = (stem ++ [46] ++ strings.ToUpper mapUpper e, none) := by
  unfold relatedPathFromHeaderPath
  have hl : ¬ (stem ++ [46, 74, 72, 82]).length < 4 := by
    simp only [List.length_append, List.length_cons, List.length_nil]; omega
  simp only [if_neg hl, slice_last stem [46, 74, 72, 82] 4 rfl,
    slice_stem_dot stem [74, 72, 82] 46 rfl]
  simp

theorem ToUpper_ascii (mapUpper : GoString → GoString) (e : GoString)
    (h : ∀ c ∈ e, c.val < 0x80) :
    strings.ToUpper mapUpper e
      = e.map (fun c => if 97 ≤ c.val ∧ c.val ≤ 122 then c - 32 else c) := by
  unfold strings.ToUpper
  have hall : e.all (fun c => decide (c.val < 0x80)) = true := by
    rw [List.all_eq_true]
    intro c hc
    exact decide_eq_true (h c hc)
  simp only [hall, if_true]
  by_cases hlow : e.any (fun c => decide (97 ≤ c.val ∧ c.val ≤ 122)) = true
  · simp only [hlow, Bool.not_true, Bool.false_eq_true, if_false]
  · have hnone : ∀ c ∈ e, ¬ (97 ≤ c.val ∧ c.val ≤ 122) := by
      intro c hc hcond
      exact hlow (List.any_eq_true.mpr ⟨c, hc, decide_eq_true hcond⟩)
    have hmap : e.map (fun c => if 97 ≤ c.val ∧ c.val ≤ 122 then c - 32 else c) = e := by
      conv_rhs => rw [← List.map_id e]
      apply List.map_congr_left
      intro c hc
      simp [hnone c hc]
    rw [Bool.not_eq_true] at hlow
    simp only [hlow, Bool.not_false, if_true]
    exact hmap.symm

/-- C17: for every stem and every extension `e`,
`relatedPathFromHeaderPath` maps `stem ++ ".jhr"` to `stem ++ "." ++ e` and
`stem ++ ".JHR"` to `stem ++ "." ++ ToUpper e`, without error, where for an
ASCII `e` the upper-case form has every letter `a..z` replaced by `A..Z` and
every other byte kept; so `NewJAMBase` derives `stem ++ ".jdt"` from
`stem ++ ".jhr"` and `stem ++ ".JDT"` from `stem ++ ".JHR"`, and keeps the
header path. -/
theorem relatedPathFromHeaderPath_derives (mapUpper : GoString → GoString)
    (stem e : GoString) :
    relatedPathFromHeaderPath mapUpper (stem ++ [46, 106, 104, 114]) e
      = (stem ++ [46] ++ e, none) ∧
    relatedPathFromHeaderPath mapUpper (stem ++ [46, 74, 72, 82]) e
      = (stem ++ [46] ++ strings.ToUpper mapUpper e, none) ∧
    ((∀ c ∈ e, c.val < 0x80) →
      strings.ToUpper mapUpper e
        = e.map (fun c => if 97 ≤ c.val ∧ c.val ≤ 122 then c - 32 else c)) ∧
    NewJAMBase mapUpper (stem ++ [46, 106, 104, 114])
      = (⟨stem ++ [46, 106, 104, 114], stem ++ [46, 106, 100, 116]⟩, none) ∧
    NewJAMBase mapUpper (stem ++ [46, 74, 72, 82])
      = (⟨stem ++ [46, 74, 72, 82], stem ++ [46, 74, 68, 84]⟩, none) := by
  refine ⟨relatedPath_lower mapUpper stem e, relatedPath_upper mapUpper stem e,
    ToUpper_ascii mapUpper e, ?_, ?_⟩
  · unfold NewJAMBase
    simp only [relatedPath_lower]
    simp
  · unfold NewJAMBase
    simp only [relatedPath_upper]
    have hup : strings.ToUpper mapUpper [106, 100, 116] = [74, 68, 84] := rfl
    rw [hup]
    simp

theorem slice_tail (p : List Byte) (n : Nat) :
    slice p (p.length - n) p.length = p.drop (p.length - n) := by
  unfold slice
  apply List.take_of_length_le
  rw [List.length_drop]

theorem relatedPath_cases (mapUpper : GoString → GoString) (headerPath e : GoString) :
    relatedPathFromHeaderPath mapUpper headerPath e
      = if headerPath.length < 4 then ([], some ErrNoExtension)
        else if headerPath.drop (headerPath.length - 4) = [46, 74, 72, 82] then
          (slice headerPath 0 (headerPath.length - 3) ++ strings.ToUpper mapUpper e, none)
        else if headerPath.drop (headerPath.length - 4) = [46, 106, 104, 114] then
          (slice headerPath 0 (headerPath.length - 3) ++ e, none)
        else ([], some ErrNoExtension) := by
  unfold relatedPathFromHeaderPath
  by_cases hl : headerPath.length < 4
  · simp [hl]
  · simp only [if_neg hl, slice_tail headerPath 4]

/-- C18: `relatedPathFromHeaderPath` fails with `ErrNoExtension` exactly when
the header path is shorter than 4 bytes or its last 4 bytes are neither
`.JHR` nor `.jhr`; it has no other error, and on failure the derived path is
empty.  `NewJAMBase` returns the same error and stores the same path.  A
mixed-case suffix such as `.Jhr` is rejected. -/
theorem relatedPathFromHeaderPath_fails_iff (mapUpper : GoString → GoString)
    (headerPath e stem : GoString) :
    ((relatedPathFromHeaderPath mapUpper headerPath e).2 = some ErrNoExtension ↔
      headerPath.length < 4 ∨
        (headerPath.drop (headerPath.length - 4) ≠ [46, 74, 72, 82] ∧
          headerPath.drop (headerPath.length - 4) ≠ [46, 106, 104, 114])) ∧
    ((relatedPathFromHeaderPath mapUpper headerPath e).2 = none ∨
      (relatedPathFromHeaderPath mapUpper headerPath e).2 = some ErrNoExtension) ∧
    ((relatedPathFromHeaderPath mapUpper headerPath e).2 = some ErrNoExtension →
      (relatedPathFromHeaderPath mapUpper headerPath e).1 = []) ∧
    (NewJAMBase mapUpper headerPath).2
      = (relatedPathFromHeaderPath mapUpper headerPath [106, 100, 116]).2 ∧
    (NewJAMBase mapUpper headerPath).1
      = ⟨headerPath, (relatedPathFromHeaderPath mapUpper headerPath [106, 100, 116]).1⟩ ∧
    relatedPathFromHeaderPath mapUpper (stem ++ [46, 74, 104, 114]) e
      = ([], some ErrNoExtension) := by
  refine ⟨?_, ?_, ?_, rfl, rfl, ?_⟩
  · rw [relatedPath_cases]
    by_cases hl : headerPath.length < 4
    · simp [hl]
    · by_cases hU : headerPath.drop (headerPath.length - 4) = [46, 74, 72, 82]
      · simp [hl, hU]
      · by_cases hL : headerPath.drop (headerPath.length - 4) = [46, 106, 104, 114]
        · simp [hl, hL]
        · simp [hl, hU, hL]
  · rw [relatedPath_cases]
    split_ifs <;> simp
  · rw [relatedPath_cases]
    split_ifs <;> simp
  · unfold relatedPathFromHeaderPath
    have hl : ¬ (stem ++ [46, 74, 104, 114]).length < 4 := by
      simp only [List.length_append, List.length_cons, List.length_nil]; omega
    simp only [if_neg hl, slice_last stem [46, 74, 104, 114] 4 rfl]
    simp


/-! ## The stream producer: text out of range, and what is emitted -/

theorem recordOutcome_of_short_text (dat : List Byte) (hh : File)
    (hdec : (readMessageHeader hh).1.2 = none)
    (hshort : (dat.drop (readMessageHeader hh).1.1.TextOffset).length
      < (readMessageHeader hh).1.1.TextLength) :
    recordOutcome dat hh
      = .error (if (dat.drop (readMessageHeader hh).1.1.TextOffset).length = 0 then GoError.EOF
          else ErrShortRead) := by
  unfold recordOutcome
  rw [hdec]
  simp only []
  unfold textOutcome
  rw [if_neg (by omega)]
  by_cases h0 : (dat.drop (readMessageHeader hh).1.1.TextOffset).length = 0
  · rw [if_pos h0, if_pos h0]
  · rw [if_neg h0, if_pos (Or.inl hshort), if_neg h0]

/-- The loop stops at the first record whose outcome is an error, with that
error and the messages of the records before it. -/
theorem readMessagesLoop_stops (dat : List Byte) (n : Nat) (hh : File) (i : Nat) (e : GoError)
    (hi : i < n)
    (hprev : ∀ k < i, ∃ m, recordOutcome dat (handleAfter k hh) = .ok m)
    (hfail : recordOutcome dat (handleAfter i hh) = .error e) :
    (readMessagesLoop n hh ⟨dat, 0⟩).1.length = i ∧
    (readMessagesLoop n hh ⟨dat, 0⟩).2 = some e := by
  obtain ⟨h1, h2⟩ := readMessagesLoop_trace dat n hh
  have hle : (readMessagesLoop n hh ⟨dat, 0⟩).1.length ≤ i := by
    by_contra hgt
    have hlt : i < (readMessagesLoop n hh ⟨dat, 0⟩).1.length := by omega
    have := h1 i _ (List.getElem?_eq_getElem hlt)
    rw [hfail] at this
    cases this
  rcases h2 with ⟨_, hlen⟩ | ⟨e', he', _, hfail'⟩
  · omega
  · by_cases heq : (readMessagesLoop n hh ⟨dat, 0⟩).1.length = i
    · rw [heq] at hfail'
      rw [hfail] at hfail'
      cases hfail'
      exact ⟨heq, he'⟩
    · obtain ⟨m, hm⟩ := hprev (readMessagesLoop n hh ⟨dat, 0⟩).1.length (by omega)
      rw [hm] at hfail'
      cases hfail'

set_option maxRecDepth 100000 in
/-- The run of `ReadMessages` on the sample base with an empty data file. -/
theorem emptyDataBase_run :
    (readMessageHeader
        (readFixedHeader ⟨sampleFixedHeader ++ (sampleRecord ++ sampleRecord2), 0⟩).2).1
      = ({ JAMMessageHeader.zero with TextOffset := 1, TextLength := 4 }, none) ∧
    sampleBase.ReadMessages emptyDataFS = ([], some GoError.EOF) := by
  decide

set_option maxRecDepth 100000 in
/-- The steps of `ReadMessages` on the base with the partly missing text. -/
theorem partBase_steps :
    (readFixedHeader ⟨partHeaderFile, 0⟩).1.2 = none ∧
    1 < (readFixedHeader ⟨partHeaderFile, 0⟩).1.1.ActiveMessages.toNat ∧
    (readMessageHeader (handleAfter 1 (readFixedHeader ⟨partHeaderFile, 0⟩).2)).1.2 = none ∧
    (sampleText.drop
        (readMessageHeader
          (handleAfter 1 (readFixedHeader ⟨partHeaderFile, 0⟩).2)).1.1.TextOffset).length = 3 ∧
    (readMessageHeader
      (handleAfter 1 (readFixedHeader ⟨partHeaderFile, 0⟩).2)).1.1.TextLength = 9 := by
  decide

set_option maxRecDepth 100000 in
/-- The first record of that base gives its message. -/
theorem partBase_first :
    recordOutcome sampleText (handleAfter 0 (readFixedHeader ⟨partHeaderFile, 0⟩).2)
      = .ok (messageOf sampleText sampleRecord) := by
  rfl

/-- C14 as stated fails when the text range lies wholly outside the data
file: with an empty data file the first record of the sample base decodes
(offset 1, length 4), no byte is there from offset 1 on, and the stream ends
with the `io.EOF` of the read, not with `ErrShortRead`. -/
theorem ReadMessages_text_beyond_end_eof :
    emptyDataFS sampleBase.textDataFilePath = some [] ∧
    (readMessageHeader
        (readFixedHeader ⟨sampleFixedHeader ++ (sampleRecord ++ sampleRecord2), 0⟩).2).1
      = ({ JAMMessageHeader.zero with TextOffset := 1, TextLength := 4 }, none) ∧
    (([] : List Byte).drop 1).length < 4 ∧
    sampleBase.ReadMessages emptyDataFS = ([], some GoError.EOF) ∧
    (sampleBase.ReadMessages emptyDataFS).2 ≠ some ErrShortRead := by
  refine ⟨by simp [emptyDataFS, sampleBase], emptyDataBase_run.1, by decide,
    emptyDataBase_run.2, ?_⟩
  rw [emptyDataBase_run.2]
  simp

/-- C14, amended: when the fixed header and the records before the `i`-th
are processed without error, the `i`-th record (`i < N`) is decoded with
text offset `O` and text length `L`, and the data file holds fewer than `L`
bytes from offset `O` on, the stream emits the messages of the `i` records
before it and none for it, and fails with `ErrShortRead` when at least one
byte is there from `O` on, and with the `io.EOF` of the read when none is. -/
theorem ReadMessages_short_text (fs : FileSystem) (j : JAMBase) (hdrc dat : List Byte)
    (hH : fs j.headerFilePath = some hdrc) (hD : fs j.textDataFilePath = some dat)
    (hfix : (readFixedHeader ⟨hdrc, 0⟩).1.2 = none) (i : Nat)
    (hi : i < (readFixedHeader ⟨hdrc, 0⟩).1.1.ActiveMessages.toNat)
    (hprev : ∀ k < i, ∃ m,
      recordOutcome dat (handleAfter k (readFixedHeader ⟨hdrc, 0⟩).2) = .ok m)
    (hdec : (readMessageHeader (handleAfter i (readFixedHeader ⟨hdrc, 0⟩).2)).1.2 = none)
    (hshort :
      (dat.drop (readMessageHeader
          (handleAfter i (readFixedHeader ⟨hdrc, 0⟩).2)).1.1.TextOffset).length
        < (readMessageHeader (handleAfter i (readFixedHeader ⟨hdrc, 0⟩).2)).1.1.TextLength) :
    (j.ReadMessages fs).1.length = i ∧
    (0 < (dat.drop (readMessageHeader
          (handleAfter i (readFixedHeader ⟨hdrc, 0⟩).2)).1.1.TextOffset).length →
      (j.ReadMessages fs).2 = some ErrShortRead) ∧
    ((dat.drop (readMessageHeader
          (handleAfter i (readFixedHeader ⟨hdrc, 0⟩).2)).1.1.TextOffset).length = 0 →
      (j.ReadMessages fs).2 = some GoError.EOF) := by
  have hfail := recordOutcome_of_short_text dat _ hdec hshort
  obtain ⟨hlen, herr⟩ := readMessagesLoop_stops dat _ _ i _ hi hprev hfail
  rw [ReadMessages_of_open fs j hdrc dat hH hD, hfix]
  simp only [ne_eq, not_true_eq_false, if_false]
  refine ⟨hlen, ?_, ?_⟩
  · intro hpos
    rw [herr, if_neg (by omega)]
  · intro hzero
    rw [herr, if_pos hzero]

theorem partFS_header : partFS sampleBase.headerFilePath = some partHeaderFile := by
  simp [partFS, sampleBase]

theorem partFS_data : partFS sampleBase.textDataFilePath = some sampleText := by
  simp [partFS, sampleBase]

theorem ReadMessages_short_text_witness :
    partFS sampleBase.headerFilePath = some partHeaderFile ∧
    partFS sampleBase.textDataFilePath = some sampleText ∧
    (sampleBase.ReadMessages partFS).1.length = 1 ∧
    (sampleBase.ReadMessages partFS).2 = some ErrShortRead :=
  have h := ReadMessages_short_text partFS sampleBase partHeaderFile sampleText
    partFS_header partFS_data partBase_steps.1 1 partBase_steps.2.1
    (fun k hk => by
      have hk0 : k = 0 := by omega
      subst hk0
      exact ⟨_, partBase_first⟩)
    partBase_steps.2.2.1
    (by rw [partBase_steps.2.2.2.1, partBase_steps.2.2.2.2]; decide)
  ⟨partFS_header, partFS_data, h.1,
    h.2.1 (by rw [partBase_steps.2.2.2.1]; decide)⟩


theorem not_mem_normalise (t : List Byte) : (13 : Byte) ∉ normalise t := by
  unfold normalise
  intro h
  obtain ⟨b, _, hb⟩ := List.mem_map.mp h
  by_cases h13 : b = 13
  · rw [if_pos h13] at hb
    exact absurd hb (by decide)
  · rw [if_neg h13] at hb
    exact h13 hb

theorem normalise_of_not_mem (t : List Byte) (h : (13 : Byte) ∉ t) : normalise t = t := by
  unfold normalise
  conv_rhs => rw [← List.map_id t]
  apply List.map_congr_left
  intro b hb
  have hne : b ≠ 13 := fun heq => h (heq ▸ hb)
  simp [hne]

/-- C19: every message `ReadMessages` emits has a `Text` of exactly
`Header.TextLength` bytes without any carriage return (`0x0D`), so that
replacing carriage returns by newlines in it once more changes nothing. -/
theorem ReadMessages_emitted (fs : FileSystem) (j : JAMBase) (m : JAMMessage)
    (hm : m ∈ (j.ReadMessages fs).1) :
    m.Text.length = m.Header.TextLength ∧
    (13 : Byte) ∉ m.Text ∧
    strings.ReplaceAll m.Text [13] [10] = m.Text := by
  cases hD : fs j.textDataFilePath with
  | none =>
    exfalso
    unfold JAMBase.ReadMessages os.Open at hm
    rw [hD] at hm
    cases hH : fs j.headerFilePath with
    | none => simp [hH] at hm
    | some hdrc => simp [hH] at hm
  | some dat =>
    obtain ⟨htext, hlen⟩ := ReadMessages_text_of_mem fs j dat hD m hm
    have hcr : (13 : Byte) ∉ m.Text := by
      rw [htext]
      exact not_mem_normalise _
    exact ⟨hlen, hcr, by rw [ReplaceAll_cr, normalise_of_not_mem _ hcr]⟩

theorem ReadMessages_emitted_witness :
    messageOf sampleText sampleRecord ∈ (sampleBase.ReadMessages sampleFS).1 ∧
    (messageOf sampleText sampleRecord).Text = [10, 66, 10, 10] ∧
    (messageOf sampleText sampleRecord).Text.length
      = (messageOf sampleText sampleRecord).Header.TextLength ∧
    (13 : Byte) ∉ (messageOf sampleText sampleRecord).Text ∧
    strings.ReplaceAll (messageOf sampleText sampleRecord).Text [13] [10]
      = (messageOf sampleText sampleRecord).Text :=
  have hm : messageOf sampleText sampleRecord ∈ (sampleBase.ReadMessages sampleFS).1 := by
    rw [sampleBase_run]; exact List.mem_cons_self _ _
  ⟨hm, by decide, ReadMessages_emitted sampleFS sampleBase _ hm⟩

end JamBase
